import Mathlib

/-!
# File server: filename check, path joining and the four file handlers

A shallow embedding of `internal/api/fileserver.go`: the handlers `uploadFile`,
`listFiles`, `downloadFile` and `deleteFile`, the library functions they call, and a
storage they act on.

* Paths follow Go's `path/filepath` on a Unix platform: the separator is the forward
  slash and there are no volume names.  A Go string is read as its list of characters;
  the slash is a single byte in UTF-8, so bytes and characters split alike.
* The storage is a finite map from resolved paths to files and directories.  Paths are
  resolved lexically; symbolic links are not part of it.
* A handler is a function from the storage and the request to the response and the
  storage it leaves.  Failures that the operating system may add on its own (`Faults`)
  and the clock (`now`) are arguments.
-/

namespace FileServer

/-! ## `path/filepath` (Unix) -/

/-- Go's `os.IsPathSeparator` on Unix: only the forward slash separates path elements. -/
def IsPathSeparator (c : Char) : Bool := c == '/'

/-- First loop of `filepath.Base`,
`for len(path) > 0 && os.IsPathSeparator(path[len(path)-1]) { path = path[0 : len(path)-1] }`.
The numeric argument is the current `len(path)`. -/
def stripTrailingSeparators (path : List Char) : Nat → List Char
  | 0 => []
  | n + 1 =>
    if IsPathSeparator (path.getD n '/') then stripTrailingSeparators path n
    else path.take (n + 1)

/-- Second loop of `filepath.Base`,
`i := len(path) - 1; for i >= 0 && !os.IsPathSeparator(path[i]) { i-- }`.
The numeric argument is `i + 1` and so is the result (`0` stands for `i = -1`). -/
def lastElementStart (path : List Char) : Nat → Nat
  | 0 => 0
  | i + 1 =>
    if !IsPathSeparator (path.getD i '/') then lastElementStart path i
    else i + 1

/-- The body of `filepath.Base` over the characters of the path. -/
def baseChars (path : List Char) : List Char :=
  if path = [] then ['.']
  else
    let stripped := stripTrailingSeparators path path.length
    let last := stripped.drop (lastElementStart stripped stripped.length)
    if last = [] then ['/'] else last

/-- Go's `filepath.Base`: the last element of the path. -/
def Base (path : String) : String := ⟨baseChars path.data⟩

/-- The test `r+k == n || os.IsPathSeparator(path[r+k])` of `filepath.Clean`, on the
unread input `path[r+k:]`. -/
def atElementEnd : List Char → Bool
  | [] => true
  | c :: _ => IsPathSeparator c

/-- The backtracking loop of `filepath.Clean` for a `..` element, entered after `out.w--`:
`for out.w > dotdot && !os.IsPathSeparator(out.index(out.w)) { out.w-- }`.
The numeric argument is `out.w` and so is the result. -/
def backtrack (buf : List Char) (dotdot : Nat) : Nat → Nat
  | 0 => 0
  | w + 1 =>
    if decide (w + 1 > dotdot) && !IsPathSeparator (buf.getD (w + 1) '/') then
      backtrack buf dotdot w
    else w + 1

/-- The main loop of `filepath.Clean`.  The unread input `path[r:]` stands for the read
index `r`, the list `out` for the written part of the buffer (`out.w = out.length`).
One unit of fuel is spent per iteration; every iteration reads at least one character,
so `len(path)` units are always enough. -/
def cleanLoop (rooted : Bool) : Nat → List Char → List Char → Nat → List Char
  | 0, _, out, _ => out
  | _ + 1, [], out, _ => out
  | fuel + 1, c :: rest, out, dotdot =>
    if IsPathSeparator c then
      -- empty path element
      cleanLoop rooted fuel rest out dotdot
    else if c == '.' && atElementEnd rest then
      -- . element
      cleanLoop rooted fuel rest out dotdot
    else if c == '.' && (rest.head? == some '.' && atElementEnd rest.tail) then
      -- .. element: remove to last separator
      if out.length > dotdot then
        cleanLoop rooted fuel rest.tail (out.take (backtrack out dotdot (out.length - 1))) dotdot
      else if !rooted then
        let out1 := (if out.length > 0 then out ++ ['/'] else out) ++ ['.', '.']
        cleanLoop rooted fuel rest.tail out1 out1.length
      else
        cleanLoop rooted fuel rest.tail out dotdot
    else
      -- real path element: add slash if needed, copy element
      let out1 :=
        if (rooted && out.length != 1) || (!rooted && out.length != 0) then out ++ ['/']
        else out
      cleanLoop rooted fuel (rest.dropWhile (fun d => !IsPathSeparator d))
        (out1 ++ c :: rest.takeWhile (fun d => !IsPathSeparator d)) dotdot

/-- The body of `filepath.Clean` over the characters of the path. -/
def cleanChars (path : List Char) : List Char :=
  match path with
  | [] => ['.']
  | c :: rest =>
    let out :=
      if IsPathSeparator c then cleanLoop true path.length rest ['/'] 1
      else cleanLoop false path.length path [] 0
    if out = [] then ['.'] else out

/-- Go's `filepath.Clean`: the shortest path name equivalent to `path` by purely lexical
processing. -/
def Clean (path : String) : String := ⟨cleanChars path.data⟩

/-- Go's `filepath.Join`: the elements from the first non-empty one on are joined with the
separator and the result is cleaned; if there is none the result is empty. -/
def Join (elem : List String) : String :=
  match elem.dropWhile (fun e => e == "") with
  | [] => ""
  | es => Clean (String.intercalate "/" es)

/-! ## Lexical path resolution -/

/-- The pieces of a text between the characters that `sep` accepts; there is always at
least one piece, and pieces may be empty. -/
def splitBy (sep : Char → Bool) : List Char → List (List Char)
  | [] => [[]]
  | c :: cs =>
    if sep c then [] :: splitBy sep cs
    else (c :: (splitBy sep cs).headD []) :: (splitBy sep cs).tail

/-- The elements of a path: the pieces between forward slashes. -/
def elements (path : List Char) : List (List Char) := splitBy IsPathSeparator path

/-- One step of a directory walk: an empty element and `.` stay, `..` goes to the parent
(the top directory is its own parent), any other element enters the entry of that name. -/
def walk (dir : List String) (e : List Char) : List String :=
  if e = [] ∨ e = ['.'] then dir
  else if e = ['.', '.'] then dir.dropLast
  else dir ++ [String.mk e]

/-- Where a path leads, as the list of directory names from the top of the file system:
a path that starts with a slash is walked from the top, any other from the working
directory `cwd`. -/
def resolve (cwd : List String) (path : String) : List String :=
  (elements path.data).foldl walk (if path.data.head? = some '/' then [] else cwd)

/-! ## `filepath.Clean` read element by element -/

/-- What `filepath.Clean` has kept so far, read as path elements: the number of leading
`..` elements and the real elements after them. -/
structure Kept where
  ups : Nat
  segs : List (List Char)

/-- The effect of one path element on what `filepath.Clean` keeps. -/
def keep (rooted : Bool) (s : Kept) (e : List Char) : Kept :=
  if e = [] ∨ e = ['.'] then s
  else if e = ['.', '.'] then
    if s.segs = [] then (if rooted then s else ⟨s.ups + 1, []⟩)
    else ⟨s.ups, s.segs.dropLast⟩
  else ⟨s.ups, s.segs ++ [e]⟩

/-- The leading `..` elements that are kept. -/
def Kept.dots (s : Kept) : List (List Char) := List.replicate s.ups ['.', '.']

/-- All kept elements in order. -/
def Kept.all (s : Kept) : List (List Char) := s.dots ++ s.segs

/-- Elements written one after the other with a slash between neighbours. -/
def joined : List (List Char) → List Char
  | [] => []
  | [e] => e
  | e :: es => e ++ '/' :: joined es

/-- The slash a rooted path starts with. -/
def lead (rooted : Bool) : List Char := if rooted then ['/'] else []

/-- The buffer contents of `filepath.Clean` that stand for the kept elements. -/
def render (rooted : Bool) (s : Kept) : List Char := lead rooted ++ joined s.all

/-- The value of `dotdot` that goes with the kept elements. -/
def dotdotOf (rooted : Bool) (s : Kept) : Nat := (lead rooted).length + (joined s.dots).length

/-- A real path element: not empty, not `.`, not `..`, and without a separator. -/
def Proper (e : List Char) : Prop :=
  e ≠ [] ∧ e ≠ ['.'] ∧ e ≠ ['.', '.'] ∧ ∀ c ∈ e, IsPathSeparator c = false

/-- Kept elements are well formed when a rooted path keeps no `..` and every other
element is a real one. -/
def Kept.WF (rooted : Bool) (s : Kept) : Prop :=
  (rooted = true → s.ups = 0) ∧ ∀ e ∈ s.segs, Proper e

/-- The directory the kept elements lead to from `base`. -/
def Kept.den (base : List String) (s : Kept) : List String :=
  base.take (base.length - s.ups) ++ s.segs.map String.mk



/-! ## The filename check -/

/-- The filename check that `uploadFile` (lines 127-135), `downloadFile` (lines 211-218)
and `deleteFile` (lines 245-252) each carry out:
`filename := filepath.Base(name); if filename == "." || filename == ".." { ...400... }`.
`none` is the rejection, `some filename` the name the handler goes on with. -/
def sanitize (raw : String) : Option String :=
  let filename := Base raw
  if filename == "." || filename == ".." then none else some filename

/-- The final path segment of a name: the text after its last slash. -/
def finalSegment (name : String) : String := ⟨(elements name.data).getLastD []⟩

/-- A name without its trailing slashes. -/
def trimSlashes (name : String) : String := ⟨name.data.rdropWhile IsPathSeparator⟩

/-! ## Storage -/

/-- File contents. -/
abbrev Bytes := List UInt8

/-- What a path can name: a regular file with its bytes and modification time, or a
directory. -/
inductive Node where
  | file (content : Bytes) (modTime : Nat)
  | dir
deriving DecidableEq

/-- The file system as the handlers see it: the working directory of the process and the
nodes, each under the list of names that leads to it from the top. -/
structure FS where
  cwd : List String
  nodes : List (List String × Node)
deriving DecidableEq

/-- Error numbers that the operating system answers a path lookup with. -/
inductive Errno where
  | ENOENT
  | EINVAL
  | ENAMETOOLONG
  | ENOTDIR
deriving DecidableEq

/-- The text of an error number. -/
def Errno.text : Errno → String
  | Errno.ENOENT => "no such file or directory"
  | Errno.EINVAL => "invalid argument"
  | Errno.ENAMETOOLONG => "file name too long"
  | Errno.ENOTDIR => "not a directory"

/-- Linux `NAME_MAX`: the largest number of bytes of a path element. -/
def NameMax : Nat := 255

/-- Linux `PATH_MAX`: a path of this many bytes or more is refused. -/
def PathMax : Nat := 4096

/-- The error that the text of a path alone decides: the empty path names nothing, a NUL
byte is invalid, and a path of `PathMax` bytes or with an element of more than `NameMax`
bytes is too long. -/
def pathError (name : String) : Option Errno :=
  if name = "" then some Errno.ENOENT
  else if name.data.contains '\x00' then some Errno.EINVAL
  else if decide (name.utf8ByteSize ≥ PathMax)
      || (elements name.data).any (fun e => decide ((String.mk e).utf8ByteSize > NameMax)) then
    some Errno.ENAMETOOLONG
  else none

/-- Whether a regular file lies on the way to `key`, at one of its proper initial parts. -/
def FS.blocked (fs : FS) (key : List String) : Bool :=
  key.inits.dropLast.any (fun p =>
    match fs.nodes.lookup p with
    | some (Node.file _ _) => true
    | _ => false)

/-- Go's `os.Stat`: the node the path names, or the error: one that the text of the path
decides, `ENOTDIR` when a regular file lies on the way, `ENOENT` when nothing is there.
Access rights are not part of the storage. -/
def osStat (fs : FS) (name : String) : Except Errno Node :=
  match pathError name with
  | some e => Except.error e
  | none =>
    if fs.blocked (resolve fs.cwd name) then Except.error Errno.ENOTDIR
    else
      match fs.nodes.lookup (resolve fs.cwd name) with
      | some n => Except.ok n
      | none => Except.error Errno.ENOENT

/-- Go's `os.IsNotExist(err)` on the result of `os.Stat`: it holds for `ENOENT` only. -/
def osIsNotExist (r : Except Errno Node) : Bool :=
  match r with
  | Except.error Errno.ENOENT => true
  | _ => false

/-- The node a path names, if the operating system finds one. -/
def FS.stat (fs : FS) (name : String) : Option Node :=
  match osStat fs name with
  | Except.ok n => some n
  | Except.error _ => none

/-- Store a node under a key, replacing what was there. -/
def FS.put (fs : FS) (key : List String) (n : Node) : FS :=
  { fs with nodes := (key, n) :: fs.nodes.filter (fun e => e.1 != key) }

/-- Drop the node under a key. -/
def FS.erase (fs : FS) (key : List String) : FS :=
  { fs with nodes := fs.nodes.filter (fun e => e.1 != key) }

/-- The entries directly inside the directory `key`, by name. -/
def FS.children (fs : FS) (key : List String) : List (String × Node) :=
  (fs.nodes.filter (fun e => e.1 != [] && e.1.dropLast == key)).map
    (fun e => (e.1.getLastD "", e.2))

/-- Failures the operating system may answer a request with whatever the stored files are
(permissions, a full disk, ...): for `os.Create` and `os.Remove` the error text, for
`io.Copy` the number of bytes written before the error and its text. -/
structure Faults where
  create : Option String
  copy : Option (Nat × String)
  remove : Option String

/-- Go's `os.Create`: creates or truncates the named file.  It fails on a path that the
operating system refuses, on a directory, and when the parent directory is missing. -/
def osCreate (fault : Option String) (now : Nat) (fs : FS) (name : String) : Except String FS :=
  match fault with
  | some err => Except.error err
  | none =>
    match pathError name with
    | some e => Except.error ("open " ++ name ++ ": " ++ e.text)
    | none =>
      if fs.blocked (resolve fs.cwd name) then
        Except.error ("open " ++ name ++ ": " ++ Errno.ENOTDIR.text)
      else
        match fs.nodes.lookup (resolve fs.cwd name) with
        | some Node.dir => Except.error ("open " ++ name ++ ": is a directory")
        | _ =>
          match fs.nodes.lookup (resolve fs.cwd name).dropLast with
          | some Node.dir => Except.ok (fs.put (resolve fs.cwd name) (Node.file [] now))
          | _ => Except.error ("open " ++ name ++ ": " ++ Errno.ENOENT.text)

/-- Go's `io.Copy` into the file that `os.Create` opened: all of `src` is written, or on a
failure the bytes written so far stay in the file. -/
def ioCopy (fault : Option (Nat × String)) (now : Nat) (fs : FS) (name : String) (src : Bytes) :
    FS × Option String :=
  match fault with
  | some (n, err) => (fs.put (resolve fs.cwd name) (Node.file (src.take n) now), some err)
  | none => (fs.put (resolve fs.cwd name) (Node.file src now), none)

/-- Go's `os.Remove`: removes the named file or empty directory. -/
def osRemove (fault : Option String) (fs : FS) (name : String) : Except String FS :=
  match fault with
  | some err => Except.error err
  | none =>
    match osStat fs name with
    | Except.error e => Except.error ("remove " ++ name ++ ": " ++ e.text)
    | Except.ok Node.dir =>
      if fs.children (resolve fs.cwd name) = [] then Except.ok (fs.erase (resolve fs.cwd name))
      else Except.error ("remove " ++ name ++ ": directory not empty")
    | Except.ok (Node.file _ _) => Except.ok (fs.erase (resolve fs.cwd name))

/-- Go's `fs.FileInfo` as far as `listFiles` reads it. -/
structure FileStat where
  Size : Int
  ModTime : Nat

/-- Go's `os.DirEntry`: `Info` is the result of `entry.Info()`, `none` when it fails. -/
structure DirEntry where
  Name : String
  IsDir : Bool
  Info : Option FileStat

/-- The directory entry for a stored node (`listFiles` reads size and time of a regular
file only). -/
def toDirEntry (e : String × Node) : DirEntry :=
  match e.2 with
  | Node.dir => ⟨e.1, true, some ⟨0, 0⟩⟩
  | Node.file content modTime => ⟨e.1, false, some ⟨content.length, modTime⟩⟩

/-- Go's `os.ReadDir`: the entries of the named directory sorted by filename. -/
def osReadDir (fs : FS) (name : String) : Except String (List DirEntry) :=
  match osStat fs name with
  | Except.error e => Except.error ("open " ++ name ++ ": " ++ e.text)
  | Except.ok (Node.file _ _) => Except.error ("readdirent " ++ name ++ ": not a directory")
  | Except.ok Node.dir =>
    Except.ok (((fs.children (resolve fs.cwd name)).insertionSort
      (fun a b => a.1.data ≤ b.1.data)).map toDirEntry)

/-! ## Requests and responses -/

/-- JSON values as `encoding/json` writes them; a `time.Time` is kept as its instant. -/
inductive JSON where
  | null
  | number (n : Int)
  | string (s : String)
  | time (t : Nat)
  | array (items : List JSON)
  | object (fields : List (String × JSON))

/-- The value of a field of a JSON object. -/
def JSON.field (v : JSON) (key : String) : Option JSON :=
  match v with
  | JSON.object fields => fields.lookup key
  | _ => none

/-- What a response carries. -/
inductive Body where
  | json (v : JSON)
  | file (content : Bytes)
  | text (s : String)
  | listing (names : List String)
  | empty

/-- The bytes of a served file, if the body is one. -/
def Body.content? : Body → Option Bytes
  | Body.file content => some content
  | _ => none

/-- The JSON document of a body, if it is one. -/
def Body.json? : Body → Option JSON
  | Body.json v => some v
  | _ => none

/-- An HTTP response: status code, the header fields set on the way, and the body. -/
structure Response where
  status : Nat
  header : List (String × String)
  body : Body

/-- The constant `http.StatusOK`. -/
def StatusOK : Nat := 200
/-- The constant `http.StatusMovedPermanently`. -/
def StatusMovedPermanently : Nat := 301
/-- The constant `http.StatusBadRequest`. -/
def StatusBadRequest : Nat := 400
/-- The constant `http.StatusNotFound`. -/
def StatusNotFound : Nat := 404
/-- The constant `http.StatusInternalServerError`. -/
def StatusInternalServerError : Nat := 500

/-- The source constant `MaxFileSize = 100 << 20`. -/
def MaxFileSize : Nat := 100 <<< 20

/-- The source struct `FileInfo` with its JSON field names `file_name`, `file_size`,
`upload_time`, `download_url`. -/
structure FileInfo where
  FileName : String
  FileSize : Int
  UploadTime : Nat
  DownloadURL : String
deriving DecidableEq

/-- The JSON encoding of a `FileInfo`. -/
def FileInfo.toJSON (f : FileInfo) : JSON :=
  JSON.object [("file_name", JSON.string f.FileName), ("file_size", JSON.number f.FileSize),
    ("upload_time", JSON.time f.UploadTime), ("download_url", JSON.string f.DownloadURL)]

/-- A Go slice of `FileInfo`: `none` is the nil slice that `var files []FileInfo`
declares. -/
abbrev Slice := Option (List FileInfo)

/-- Go's `append(files, x)`. -/
def Slice.append (files : Slice) (x : FileInfo) : Slice :=
  match files with
  | none => some [x]
  | some xs => some (xs ++ [x])

/-- Go's `len(files)`. -/
def Slice.len (files : Slice) : Int :=
  match files with
  | none => 0
  | some xs => xs.length

/-- The JSON encoding of a slice: `encoding/json` writes a nil slice as `null` and any
other slice as an array. -/
def Slice.toJSON (files : Slice) : JSON :=
  match files with
  | none => JSON.null
  | some xs => JSON.array (xs.map FileInfo.toJSON)

/-- Gin's `c.JSON(code, obj)`. -/
def respondJSON (code : Nat) (obj : JSON) : Response :=
  ⟨code, [("Content-Type", "application/json; charset=utf-8")], Body.json obj⟩

/-- The part of a `*gin.Context` that `downloadFile` and `deleteFile` read: the path of
the request URL and the route parameters. -/
structure Context where
  URLPath : String
  Params : List (String × String)

/-- Gin's `c.Param(key)`: the value of the route parameter, empty if there is none. -/
def Context.Param (c : Context) (key : String) : String := (c.Params.lookup key).getD ""

/-- Gin's match of a request path against a route `fixed/:filename`: after the fixed part
comes exactly one segment, not empty and without a slash, and that is the parameter. -/
def matchFilename (fixed : String) (urlPath : String) : Option Context :=
  if urlPath.data.take fixed.length = fixed.data ∧ urlPath.data.drop fixed.length ≠ []
      ∧ '/' ∉ urlPath.data.drop fixed.length
  then some ⟨urlPath, [("filename", ⟨urlPath.data.drop fixed.length⟩)]⟩
  else none

/-- The context of `GET /api/v1/file/download/:filename`: `main.go` mounts the file routes
under `/api/v1` and `/file`, `FileServerRoute` registers `/download/:filename`. -/
def routeDownload (urlPath : String) : Option Context :=
  matchFilename "/api/v1/file/download/" urlPath

/-- The context of `DELETE /api/v1/file/file/:filename`. -/
def routeDelete (urlPath : String) : Option Context :=
  matchFilename "/api/v1/file/file/" urlPath

/-- A file part of a parsed multipart form (`multipart.FileHeader` with the bytes that
`Open` gives). -/
structure FileHeader where
  Filename : String
  content : Bytes

/-- The field `Size` of a `multipart.FileHeader`. -/
def FileHeader.Size (h : FileHeader) : Int := h.content.length

/-- An upload request, by the layout of its body: first the multipart form, which ends
with its closing boundary, then whatever follows the closing boundary.  `parts` is what
the multipart parser makes of the form (an error, or the file parts by field name),
`framing` the number of bytes of the form besides the contents of the file parts
(boundaries and part headers; all that is read of a form with an error), `trailing` the
number of bytes after the closing boundary. -/
structure UploadRequest where
  parts : Except String (List (String × FileHeader))
  framing : Nat
  trailing : Nat

/-- The number of bytes of the multipart form, its closing boundary included: the framing
and the contents of the file parts. -/
def UploadRequest.formLength (req : UploadRequest) : Nat :=
  req.framing +
    match req.parts with
    | Except.ok ps => (ps.map (fun p => p.2.content.length)).sum
    | Except.error _ => 0

/-- The number of bytes of the request body. -/
def UploadRequest.bodyLength (req : UploadRequest) : Nat := req.formLength + req.trailing

/-- The call `c.Request.Body = http.MaxBytesReader(c.Writer, c.Request.Body, maxBytes)`
followed by `c.Request.ParseMultipartForm(maxBytes)`.  The parser reads the body up to the
closing boundary of the form and no further; the reader fails on a read beyond the limit.
So the call fails when the form is longer than the limit, and otherwise gives what the
parser makes of the form, whatever follows the closing boundary. -/
def ParseMultipartForm (req : UploadRequest) (maxBytes : Nat) :
    Except String (List (String × FileHeader)) :=
  if req.formLength > maxBytes then Except.error "http: request body too large"
  else req.parts

/-- The call `c.Request.FormFile(key)`: the first file under the field name. -/
def FormFile (form : List (String × FileHeader)) (key : String) : Except String FileHeader :=
  match form.lookup key with
  | some h => Except.ok h
  | none => Except.error "http: no such file"

/-- The function `isSlashRune` of `net/http`. -/
def isSlashRune (r : Char) : Bool := r == '/' || r == '\\'

/-- The function `containsDotDot` of `net/http`: some field between slashes or backslashes is `..`. -/
def containsDotDot (v : String) : Bool :=
  ((splitBy isSlashRune v.data).filter (fun ent => ent != [])).any (fun ent => ent == ['.', '.'])

/-- The names in a directory in the order of a listing. -/
def FS.names (fs : FS) (key : List String) : List String :=
  ((fs.children key).map Prod.fst).insertionSort (fun a b => a.data ≤ b.data)

/-- Gin's `c.File(filepath)`, which is `http.ServeFile(c.Writer, c.Request, filepath)`, for
a `GET` request without range or conditional header fields.  `ServeFile` rejects a request
whose URL path has a `..` element, redirects a request whose URL path ends in
`/index.html` to `./`, answers 404 when the file is not there (also when a regular file
lies on the way) and 500 when it cannot be opened for another reason, and otherwise
replies with the contents of the file; for a directory it redirects to the address with a final
slash, or replies with the `index.html` inside or with a listing.  The empty name stands
for the working directory.  `header` holds the fields the handler has set before. -/
def ServeFile (fs : FS) (urlPath : String) (header : List (String × String)) (name : String) :
    Response :=
  if containsDotDot urlPath then
    ⟨StatusBadRequest, header, Body.text "invalid URL path"⟩
  else if "/index.html".data.isSuffixOf urlPath.data then
    ⟨StatusMovedPermanently, header ++ [("Location", "./")], Body.empty⟩
  else
    match osStat fs (if name = "" then "." else name) with
    | Except.error Errno.ENOENT => ⟨StatusNotFound, header, Body.text "404 page not found"⟩
    | Except.error Errno.ENOTDIR => ⟨StatusNotFound, header, Body.text "404 page not found"⟩
    | Except.error _ =>
      ⟨StatusInternalServerError, header, Body.text "500 Internal Server Error"⟩
    | Except.ok (Node.file content _) => ⟨StatusOK, header, Body.file content⟩
    | Except.ok Node.dir =>
      if urlPath.data.getLast? ≠ some '/' then
        ⟨StatusMovedPermanently, header ++ [("Location", Base urlPath ++ "/")], Body.empty⟩
      else
        match fs.stat (name ++ "/index.html") with
        | some (Node.file content _) => ⟨StatusOK, header, Body.file content⟩
        | some Node.dir =>
          ⟨StatusOK, header, Body.listing (fs.names (resolve fs.cwd (name ++ "/index.html")))⟩
        | none => ⟨StatusOK, header, Body.listing (fs.names (resolve fs.cwd name))⟩

/-! ## The handlers of `fileserver.go` -/

/-- The source function `uploadFile` (lines 103-171). -/
def uploadFile (env : Faults) (now : Nat) (fs : FS) (req : UploadRequest) (UploadDir : String) :
    Response × FS :=
  match ParseMultipartForm req MaxFileSize with
  | Except.error _ =>
    (respondJSON StatusBadRequest (JSON.object [("error", JSON.string "文件太大"),
      ("message", JSON.string ("文件大小不能超过 " ++ toString (MaxFileSize / (1 <<< 20)) ++ "MB"))]),
     fs)
  | Except.ok form =>
    match FormFile form "file" with
    | Except.error err =>
      (respondJSON StatusBadRequest (JSON.object [("error", JSON.string "无效的文件"),
        ("message", JSON.string err)]), fs)
    | Except.ok header =>
      match sanitize header.Filename with
      | none =>
        (respondJSON StatusBadRequest (JSON.object [("error", JSON.string "无效的文件名"),
          ("message", JSON.string "文件名不能为 '.' 或 '..'")]), fs)
      | some filename =>
        match osCreate env.create now fs (Join [UploadDir, filename]) with
        | Except.error err =>
          (respondJSON StatusInternalServerError (JSON.object
            [("error", JSON.string "创建文件失败"), ("message", JSON.string err)]), fs)
        | Except.ok fs1 =>
          match ioCopy env.copy now fs1 (Join [UploadDir, filename]) header.content with
          | (fs2, some err) =>
            (respondJSON StatusInternalServerError (JSON.object
              [("error", JSON.string "保存文件失败"), ("message", JSON.string err)]), fs2)
          | (fs2, none) =>
            (respondJSON StatusOK (JSON.object
              [("message", JSON.string "文件上传成功"),
               ("file_info", FileInfo.toJSON
                 ⟨filename, header.Size, now, "/api/v1/file/download/" ++ filename⟩),
               ("direct_url", JSON.string ("/files/" ++ filename))]), fs2)

/-- The loop body of `listFiles`: a directory is skipped, an entry whose `Info()` fails is
skipped, any other entry is appended. -/
def listStep (files : Slice) (entry : DirEntry) : Slice :=
  if !entry.IsDir then
    match entry.Info with
    | none => files
    | some info =>
      files.append ⟨entry.Name, info.Size, info.ModTime, "/api/v1/file/download/" ++ entry.Name⟩
  else files

/-- The source function `listFiles` (lines 174-205). -/
def listFiles (fs : FS) (UploadDir : String) : Response × FS :=
  match osReadDir fs UploadDir with
  | Except.error err =>
    (respondJSON StatusInternalServerError (JSON.object
      [("error", JSON.string "读取文件列表失败"), ("message", JSON.string err)]), fs)
  | Except.ok entries =>
    (respondJSON StatusOK (JSON.object
      [("files", Slice.toJSON (entries.foldl listStep none)),
       ("count", JSON.number (Slice.len (entries.foldl listStep none)))]), fs)

/-- The source function `downloadFile` (lines 208-239). -/
def downloadFile (fs : FS) (c : Context) (UploadDir : String) : Response × FS :=
  match sanitize (c.Param "filename") with
  | none => (respondJSON StatusBadRequest (JSON.object [("error", JSON.string "无效的文件名")]), fs)
  | some filename =>
    if osIsNotExist (osStat fs (Join [UploadDir, filename])) then
      (respondJSON StatusNotFound (JSON.object [("error", JSON.string "文件不存在"),
        ("message", JSON.string ("文件 '" ++ filename ++ "' 未找到"))]), fs)
    else
      (ServeFile fs c.URLPath
        [("Content-Description", "File Transfer"),
         ("Content-Transfer-Encoding", "binary"),
         ("Content-Disposition", "attachment; filename=" ++ filename),
         ("Content-Type", "application/octet-stream")]
        (Join [UploadDir, filename]), fs)

/-- The source function `deleteFile` (lines 242-277). -/
def deleteFile (env : Faults) (fs : FS) (c : Context) (UploadDir : String) : Response × FS :=
  match sanitize (c.Param "filename") with
  | none => (respondJSON StatusBadRequest (JSON.object [("error", JSON.string "无效的文件名")]), fs)
  | some filename =>
    if osIsNotExist (osStat fs (Join [UploadDir, filename])) then
      (respondJSON StatusNotFound (JSON.object [("error", JSON.string "文件不存在"),
        ("message", JSON.string ("文件 '" ++ filename ++ "' 未找到"))]), fs)
    else
      match osRemove env.remove fs (Join [UploadDir, filename]) with
      | Except.error err =>
        (respondJSON StatusInternalServerError (JSON.object
          [("error", JSON.string "删除文件失败"), ("message", JSON.string err)]), fs)
      | Except.ok fs1 =>
        (respondJSON StatusOK (JSON.object
          [("message", JSON.string ("文件 '" ++ filename ++ "' 删除成功"))]), fs1)

/-- A storage with the empty directory `/srv/uploads`, seen from `/srv`. -/
def emptyStore : FS := ⟨["srv"], [(["srv"], Node.dir), (["srv", "uploads"], Node.dir)]⟩

/-- An upload of one file under the form field `file`, with 200 bytes of framing and
nothing after the closing boundary. -/
def uploadOf (name : String) (content : Bytes) : UploadRequest :=
  ⟨Except.ok [("file", ⟨name, content⟩)], 200, 0⟩

/-- No failure from the operating system. -/
def noFaults : Faults := ⟨none, none, none⟩

/-! ## Theorems -/

theorem splitBy_ne_nil (sep : Char → Bool) (l : List Char) : splitBy sep l ≠ [] := by
  cases l with
  | nil => simp [splitBy]
  | cons c cs =>
    unfold splitBy
    split <;> simp

theorem splitBy_cons_sep (sep : Char → Bool) (c : Char) (l : List Char) (h : sep c = true) :
    splitBy sep (c :: l) = [] :: splitBy sep l := by
  simp [splitBy, h]

theorem splitBy_free_append (sep : Char → Bool) (e l : List Char) (h : ∀ c ∈ e, sep c = false) :
    splitBy sep (e ++ l) = (e ++ (splitBy sep l).headD []) :: (splitBy sep l).tail := by
  induction e with
  | nil =>
    cases h0 : splitBy sep l with
    | nil => exact absurd h0 (splitBy_ne_nil sep l)
    | cons x xs => simp [h0]
  | cons c cs ih =>
    have hc : sep c = false := h c (by simp)
    have := ih (fun d hd => h d (by simp [hd]))
    simp [splitBy, hc, this]

theorem splitBy_of_free (sep : Char → Bool) (e : List Char) (h : ∀ c ∈ e, sep c = false) :
    splitBy sep e = [e] := by
  have := splitBy_free_append sep e [] h
  simpa [splitBy] using this

theorem splitBy_free_sep (sep : Char → Bool) (e l : List Char) (c : Char)
    (h : ∀ d ∈ e, sep d = false) (hc : sep c = true) :
    splitBy sep (e ++ c :: l) = e :: splitBy sep l := by
  rw [splitBy_free_append sep e _ h, splitBy_cons_sep sep c l hc]
  simp

theorem splitBy_append_sep (sep : Char → Bool) (a l : List Char) (c : Char) (hc : sep c = true) :
    splitBy sep (a ++ c :: l) = splitBy sep a ++ splitBy sep l := by
  induction a with
  | nil => simp [splitBy, hc]
  | cons d ds ih =>
    by_cases hd : sep d = true
    · simp [splitBy, hd, ih]
    · simp only [List.cons_append, splitBy, hd, ih]
      cases h1 : splitBy sep ds with
      | nil => exact absurd h1 (splitBy_ne_nil sep ds)
      | cons x xs => simp [ih, h1]

theorem joined_cons (e : List Char) (es : List (List Char)) (h : es ≠ []) :
    joined (e :: es) = e ++ '/' :: joined es := by
  cases es with
  | nil => exact absurd rfl h
  | cons x xs => rfl

theorem joined_append (a b : List (List Char)) (ha : a ≠ []) (hb : b ≠ []) :
    joined (a ++ b) = joined a ++ '/' :: joined b := by
  induction a with
  | nil => exact absurd rfl ha
  | cons x xs ih =>
    cases xs with
    | nil =>
      simp only [List.singleton_append]
      rw [joined_cons x b hb]
      rfl
    | cons y ys =>
      have h1 : joined (x :: y :: ys) = x ++ '/' :: joined (y :: ys) := rfl
      have h2 : joined (x :: y :: ys ++ b) = x ++ '/' :: joined (y :: ys ++ b) := rfl
      rw [h1, h2, ih (by simp)]
      simp

theorem joined_eq_nil (a : List (List Char)) (h : ∀ e ∈ a, e ≠ []) :
    joined a = [] ↔ a = [] := by
  constructor
  · intro hj
    cases a with
    | nil => rfl
    | cons x xs =>
      exfalso
      have hx : x ≠ [] := h x (by simp)
      cases xs with
      | nil => exact hx hj
      | cons y ys =>
        have h1 : joined (x :: y :: ys) = x ++ '/' :: joined (y :: ys) := rfl
        rw [h1] at hj
        simp at hj
  · intro ha
    subst ha
    rfl

theorem elements_joined (a : List (List Char)) (ha : a ≠ [])
    (h : ∀ e ∈ a, ∀ c ∈ e, IsPathSeparator c = false) : elements (joined a) = a := by
  induction a with
  | nil => exact absurd rfl ha
  | cons x xs ih =>
    cases xs with
    | nil =>
      exact splitBy_of_free _ x (h x (by simp))
    | cons y ys =>
      have h1 : joined (x :: y :: ys) = x ++ '/' :: joined (y :: ys) := rfl
      rw [h1]
      unfold elements
      rw [splitBy_free_sep _ x _ '/' (h x (by simp)) (by decide)]
      have := ih (by simp) (fun e he => h e (by simp [he]))
      unfold elements at this
      rw [this]

theorem backtrack_stop (pre e : List Char) (dotdot : Nat)
    (he : ∀ c ∈ e, IsPathSeparator c = false) (hd : dotdot ≤ pre.length) :
    ∀ n, n ≤ e.length → backtrack (pre ++ '/' :: e) dotdot (pre.length + n) = pre.length := by
  intro n
  induction n with
  | zero =>
    intro _
    cases hp : pre.length with
    | zero => rfl
    | succ w =>
      have hg : (pre ++ '/' :: e).getD (w + 1) '/' = '/' := by
        rw [← hp, List.getD_append_right _ _ _ _ (le_refl _)]
        simp
      simp only [Nat.add_zero, backtrack, hg]
      simp [IsPathSeparator]
  | succ n ih =>
    intro hn
    have hlt : n < e.length := by omega
    have hg : (pre ++ '/' :: e).getD (pre.length + (n + 1)) '/' = e[n] := by
      rw [List.getD_append_right _ _ _ _ (by omega)]
      have : pre.length + (n + 1) - pre.length = n + 1 := by omega
      rw [this]
      simp [List.getD_eq_getElem?_getD, List.getElem?_eq_getElem hlt]
    have hs : IsPathSeparator e[n] = false := he _ (List.getElem_mem _)
    have hw : pre.length + (n + 1) = (pre.length + n) + 1 := by omega
    rw [hw]
    unfold backtrack
    rw [← hw, hg, hs]
    have : decide (pre.length + (n + 1) > dotdot) = true := by simp; omega
    simp only [this, Bool.not_false, Bool.and_self, if_true]
    exact ih (by omega)

theorem backtrack_floor (pre e : List Char)
    (he : ∀ c ∈ e, IsPathSeparator c = false) :
    ∀ n, n < e.length → backtrack (pre ++ e) pre.length (pre.length + n) = pre.length := by
  intro n
  induction n with
  | zero =>
    intro _
    cases hp : pre.length with
    | zero => rfl
    | succ w => simp [backtrack]
  | succ n ih =>
    intro hn
    have hg : (pre ++ e).getD (pre.length + (n + 1)) '/' = e[n + 1] := by
      rw [List.getD_append_right _ _ _ _ (by omega)]
      have : pre.length + (n + 1) - pre.length = n + 1 := by omega
      rw [this]
      simp [List.getD_eq_getElem?_getD, List.getElem?_eq_getElem hn]
    have hs : IsPathSeparator e[n + 1] = false := he _ (List.getElem_mem _)
    have hw : pre.length + (n + 1) = (pre.length + n) + 1 := by omega
    rw [hw]
    unfold backtrack
    rw [← hw, hg, hs]
    have : decide (pre.length + (n + 1) > pre.length) = true := by simp
    simp only [this, Bool.not_false, Bool.and_self, if_true]
    exact ih (by omega)

theorem foldl_elements_append {σ : Type} (f : σ → List Char → σ) (hf : ∀ x, f x [] = x)
    (x : σ) (e t : List Char) (he : ∀ c ∈ e, IsPathSeparator c = false)
    (ht : atElementEnd t = true) :
    (elements (e ++ t)).foldl f x = (elements t).foldl f (f x e) := by
  cases t with
  | nil =>
    simp [elements, splitBy_of_free _ e he, splitBy, hf]
  | cons d r =>
    have hd : IsPathSeparator d = true := ht
    unfold elements
    rw [splitBy_free_sep _ e r d he hd, splitBy_cons_sep _ d r hd]
    simp [hf]

theorem keep_nil (rooted : Bool) (s : Kept) : keep rooted s [] = s := by
  simp [keep]

theorem dots_eq (s : Kept) : ∀ e ∈ s.dots, e = ['.', '.'] := by
  intro e he
  simp only [Kept.dots, List.mem_replicate] at he
  exact he.2

theorem all_free (rooted : Bool) (s : Kept) (h : s.WF rooted) :
    ∀ e ∈ s.all, ∀ c ∈ e, IsPathSeparator c = false := by
  intro e he c hc
  simp only [Kept.all, List.mem_append] at he
  rcases he with he | he
  · rw [dots_eq s e he] at hc
    simp at hc
    subst hc
    decide
  · exact (h.2 e he).2.2.2 c hc

theorem all_ne (rooted : Bool) (s : Kept) (h : s.WF rooted) : ∀ e ∈ s.all, e ≠ [] := by
  intro e he
  simp only [Kept.all, List.mem_append] at he
  rcases he with he | he
  · rw [dots_eq s e he]
    simp
  · exact (h.2 e he).1

theorem keep_WF (rooted : Bool) (s : Kept) (e : List Char) (h : s.WF rooted)
    (he : ∀ c ∈ e, IsPathSeparator c = false) : (keep rooted s e).WF rooted := by
  unfold keep
  split
  · exact h
  · next h1 =>
    split
    · split
      · split
        · exact h
        · next hr =>
          refine ⟨fun hr2 => absurd hr2 hr, ?_⟩
          simp
      · exact ⟨h.1, fun x hx => h.2 x (List.mem_of_mem_dropLast hx)⟩
    · next h2 =>
      refine ⟨h.1, fun x hx => ?_⟩
      simp only [List.mem_append, List.mem_singleton] at hx
      rcases hx with hx | rfl
      · exact h.2 x hx
      · exact ⟨fun h0 => h1 (Or.inl h0), fun h0 => h1 (Or.inr h0), h2, he⟩

theorem joined_length_le (a b : List (List Char)) :
    (joined a).length ≤ (joined (a ++ b)).length := by
  by_cases ha : a = []
  · subst ha
    simp [joined]
  · by_cases hb : b = []
    · subst hb
      simp
    · rw [joined_append a b ha hb]
      simp

theorem render_length_gt (rooted : Bool) (s : Kept) (h : s.WF rooted) :
    (render rooted s).length > dotdotOf rooted s ↔ s.segs ≠ [] := by
  unfold render dotdotOf Kept.all
  by_cases hs : s.segs = []
  · simp [hs]
  · have hne : joined s.segs ≠ [] := by
      intro h0
      exact hs ((joined_eq_nil s.segs (fun e he => (h.2 e he).1)).1 h0)
    have hpos : 0 < (joined s.segs).length := List.length_pos.2 hne
    by_cases hd : s.dots = []
    · simp [hd, hs, joined]
      exact hpos
    · rw [joined_append _ _ hd hs]
      simp [hs]

theorem backtrack_render (rooted : Bool) (s : Kept) (h : s.WF rooted) (hs : s.segs ≠ []) :
    (render rooted s).take
        (backtrack (render rooted s) (dotdotOf rooted s) ((render rooted s).length - 1)) =
      render rooted ⟨s.ups, s.segs.dropLast⟩ := by
  have hsplit := List.dropLast_append_getLast hs
  have hp : Proper (s.segs.getLast hs) := h.2 _ (List.getLast_mem hs)
  generalize s.segs.getLast hs = e at hsplit hp
  generalize hinit : s.segs.dropLast = init at hsplit
  have hr : render rooted ⟨s.ups, init⟩ = lead rooted ++ joined (s.dots ++ init) := rfl
  have hout : render rooted s = lead rooted ++ joined ((s.dots ++ init) ++ [e]) := by
    unfold render Kept.all
    rw [← hsplit, List.append_assoc]
  rw [hr, hout]
  have hpos : 0 < e.length := List.length_pos.2 hp.1
  by_cases hA : s.dots ++ init = []
  · have hd : s.dots = [] := (List.append_eq_nil.1 hA).1
    have hdd : dotdotOf rooted s = (lead rooted).length := by
      simp [dotdotOf, hd, joined]
    rw [hA, hdd]
    simp only [List.nil_append, joined, List.append_nil]
    have hlen : (lead rooted ++ e).length - 1 = (lead rooted).length + (e.length - 1) := by
      simp
      omega
    rw [hlen, backtrack_floor (lead rooted) e hp.2.2.2 (e.length - 1) (by omega)]
    simp
  · rw [joined_append _ _ hA (by simp)]
    simp only [joined]
    have hd : dotdotOf rooted s ≤ (lead rooted ++ joined (s.dots ++ init)).length := by
      have := joined_length_le s.dots init
      simp [dotdotOf]
      omega
    have hlen : (lead rooted ++ (joined (s.dots ++ init) ++ '/' :: e)).length - 1
        = (lead rooted ++ joined (s.dots ++ init)).length + e.length := by
      simp
      omega
    rw [hlen, ← List.append_assoc,
      backtrack_stop (lead rooted ++ joined (s.dots ++ init)) e _ hp.2.2.2 hd e.length (le_refl _)]
    exact List.take_left' rfl

theorem render_up (s : Kept) (hs : s.segs = []) :
    (if (render false s).length > 0 then render false s ++ ['/'] else render false s)
        ++ ['.', '.'] = render false ⟨s.ups + 1, []⟩ := by
  have h1 : render false s = joined s.dots := by
    simp [render, Kept.all, hs, lead]
  have h2 : render false ⟨s.ups + 1, []⟩ = joined (s.dots ++ [['.', '.']]) := by
    simp [render, Kept.all, lead, Kept.dots, List.replicate_succ']
  rw [h1, h2]
  by_cases hd : s.dots = []
  · simp [hd, joined]
  · have hne : joined s.dots ≠ [] := by
      intro h0
      refine hd ((joined_eq_nil s.dots (fun e he => ?_)).1 h0)
      rw [dots_eq s e he]
      simp
    have hpos : 0 < (joined s.dots).length := List.length_pos.2 hne
    rw [joined_append _ _ hd (by simp)]
    simp [hpos, joined]

theorem dotdotOf_up (s : Kept) :
    dotdotOf false ⟨s.ups + 1, []⟩ = (render false ⟨s.ups + 1, []⟩).length := by
  simp [dotdotOf, render, Kept.all, lead]

theorem render_push (rooted : Bool) (s : Kept) (e : List Char) (h : s.WF rooted) :
    (if (rooted && (render rooted s).length != 1) || (!rooted && (render rooted s).length != 0)
      then render rooted s ++ ['/'] else render rooted s) ++ e
      = render rooted ⟨s.ups, s.segs ++ [e]⟩ := by
  have h2 : render rooted ⟨s.ups, s.segs ++ [e]⟩ = lead rooted ++ joined (s.all ++ [e]) := by
    simp [render, Kept.all, Kept.dots]
  rw [h2]
  unfold render
  by_cases hA : s.all = []
  · rw [hA]
    cases rooted <;> simp [joined, lead]
  · have hne : joined s.all ≠ [] := by
      intro h0
      exact hA ((joined_eq_nil s.all (all_ne rooted s h)).1 h0)
    have hpos : 0 < (joined s.all).length := List.length_pos.2 hne
    rw [joined_append _ _ hA (by simp)]
    cases rooted
    · have : (joined s.all).length ≠ 0 := by omega
      simp [lead, joined, this]
    · have : (joined s.all).length ≠ 0 := by omega
      simp [lead, joined, this]

theorem atElementEnd_dropWhile (t : List Char) :
    atElementEnd (t.dropWhile (fun d => !IsPathSeparator d)) = true := by
  induction t with
  | nil => rfl
  | cons d r ih =>
    by_cases hd : IsPathSeparator d = true
    · simp [List.dropWhile, hd, atElementEnd]
    · simp only [Bool.not_eq_true] at hd
      simp [List.dropWhile, hd, ih]

theorem takeWhile_free (t : List Char) :
    ∀ c ∈ t.takeWhile (fun d => !IsPathSeparator d), IsPathSeparator c = false := by
  intro c hc
  have := List.mem_takeWhile_imp hc
  simpa using this

theorem atElementEnd_of_takeWhile_nil (t : List Char)
    (h : t.takeWhile (fun d => !IsPathSeparator d) = []) : atElementEnd t = true := by
  cases t with
  | nil => rfl
  | cons d r =>
    by_cases hd : IsPathSeparator d = true
    · exact hd
    · simp only [Bool.not_eq_true] at hd
      simp [List.takeWhile, hd] at h

theorem keep_dot (rooted : Bool) (s : Kept) : keep rooted s ['.'] = s := by
  simp [keep]

theorem keep_proper (rooted : Bool) (s : Kept) (e : List Char) (h : Proper e) :
    keep rooted s e = ⟨s.ups, s.segs ++ [e]⟩ := by
  simp [keep, h.1, h.2.1, h.2.2.1]

theorem proper_first (c : Char) (t : List Char) (h1 : IsPathSeparator c = false)
    (h2 : (c == '.' && atElementEnd t) = false)
    (h3 : (c == '.' && (t.head? == some '.' && atElementEnd t.tail)) = false) :
    Proper (c :: t.takeWhile (fun d => !IsPathSeparator d)) := by
  refine ⟨by simp, ?_, ?_, ?_⟩
  · intro h
    simp only [List.cons.injEq] at h
    have := atElementEnd_of_takeWhile_nil t h.2
    simp [h.1, this] at h2
  · intro h
    simp only [List.cons.injEq] at h
    obtain ⟨hc, ht⟩ := h
    cases t with
    | nil => simp at ht
    | cons d r =>
      by_cases hd : IsPathSeparator d = true
      · simp [List.takeWhile, hd] at ht
      · simp only [Bool.not_eq_true] at hd
        simp only [List.takeWhile, hd, Bool.not_false, List.cons.injEq] at ht
        have := atElementEnd_of_takeWhile_nil r ht.2
        simp [hc, ht.1, this] at h3
  · intro d hd
    simp only [List.mem_cons] at hd
    rcases hd with rfl | hd
    · exact h1
    · exact takeWhile_free t d hd

theorem cleanLoop_eq (rooted : Bool) :
    ∀ (fuel : Nat) (rest : List Char) (s : Kept), rest.length ≤ fuel → s.WF rooted →
      cleanLoop rooted fuel rest (render rooted s) (dotdotOf rooted s)
        = render rooted ((elements rest).foldl (keep rooted) s) := by
  intro fuel
  induction fuel with
  | zero =>
    intro rest s hl _
    have : rest = [] := List.length_eq_zero.1 (by omega)
    subst this
    simp [cleanLoop, elements, splitBy, keep_nil]
  | succ fuel ih =>
    intro rest s hl hwf
    cases rest with
    | nil => simp [cleanLoop, elements, splitBy, keep_nil]
    | cons c t =>
      have ht : t.length ≤ fuel := by
        simp only [List.length_cons] at hl
        omega
      unfold cleanLoop
      by_cases h1 : IsPathSeparator c = true
      · rw [if_pos h1, ih t s ht hwf]
        unfold elements
        rw [splitBy_cons_sep _ c t h1]
        simp [keep_nil]
      · rw [if_neg h1]
        simp only [Bool.not_eq_true] at h1
        by_cases h2 : (c == '.' && atElementEnd t) = true
        · rw [if_pos h2, ih t s ht hwf]
          simp only [Bool.and_eq_true, beq_iff_eq] at h2
          have := foldl_elements_append (keep rooted) (keep_nil rooted) s ['.'] t
            (by intro d hd; simp at hd; subst hd; decide) h2.2
          rw [h2.1]
          simp only [List.singleton_append] at this
          rw [this, keep_dot]
        · rw [if_neg h2]
          simp only [Bool.not_eq_true] at h2
          by_cases h3 : (c == '.' && (t.head? == some '.' && atElementEnd t.tail)) = true
          · rw [if_pos h3]
            simp only [Bool.and_eq_true, beq_iff_eq] at h3
            obtain ⟨hc, hhead, hend⟩ := h3
            cases t with
            | nil => simp at hhead
            | cons d r =>
              simp only [List.head?_cons, Option.some.injEq] at hhead
              subst hc hhead
              simp only [List.tail_cons] at hend ⊢
              have hr : r.length ≤ fuel := by
                simp only [List.length_cons] at ht
                omega
              have hf := foldl_elements_append (keep rooted) (keep_nil rooted) s ['.', '.'] r
                (by intro d hd; simp at hd; subst hd; decide) hend
              simp only [List.cons_append, List.nil_append] at hf
              rw [hf]
              have hk := keep_WF rooted s ['.', '.'] hwf
                (by intro d hd; simp at hd; subst hd; decide)
              by_cases hs : s.segs = []
              · have hgt : ¬ (render rooted s).length > dotdotOf rooted s := by
                  rw [render_length_gt rooted s hwf]
                  simp [hs]
                rw [if_neg hgt]
                cases rooted with
                | true =>
                  have hkeep : keep true s ['.', '.'] = s := by simp [keep, hs]
                  simp only [Bool.not_true, Bool.false_eq_true, if_false]
                  rw [hkeep, ih r s hr hwf]
                | false =>
                  have hkeep : keep false s ['.', '.'] = ⟨s.ups + 1, []⟩ := by simp [keep, hs]
                  simp only [Bool.not_false, if_true]
                  rw [hkeep] at hk ⊢
                  rw [render_up s hs, ← dotdotOf_up s, ih r _ hr hk]
              · have hgt : (render rooted s).length > dotdotOf rooted s := by
                  rw [render_length_gt rooted s hwf]
                  exact hs
                have hkeep : keep rooted s ['.', '.'] = ⟨s.ups, s.segs.dropLast⟩ := by
                  simp [keep, hs]
                rw [if_pos hgt, backtrack_render rooted s hwf hs]
                rw [hkeep] at hk ⊢
                exact ih r _ hr hk
          · rw [if_neg h3]
            simp only [Bool.not_eq_true] at h3
            have hp := proper_first c t h1 h2 h3
            have hf := foldl_elements_append (keep rooted) (keep_nil rooted) s
              (c :: t.takeWhile (fun d => !IsPathSeparator d))
              (t.dropWhile (fun d => !IsPathSeparator d)) hp.2.2.2 (atElementEnd_dropWhile t)
            simp only [List.cons_append, List.takeWhile_append_dropWhile] at hf
            rw [hf, keep_proper rooted s _ hp]
            have hk : Kept.WF rooted ⟨s.ups, s.segs ++ [c :: t.takeWhile (fun d => !IsPathSeparator d)]⟩ := by
              have := keep_WF rooted s _ hwf hp.2.2.2
              rwa [keep_proper rooted s _ hp] at this
            have hlen : (t.dropWhile (fun d => !IsPathSeparator d)).length ≤ fuel := by
              have := (List.dropWhile_sublist (fun d => !IsPathSeparator d) (l := t)).length_le
              omega
            have hpush := render_push rooted s (c :: t.takeWhile (fun d => !IsPathSeparator d)) hwf
            show cleanLoop rooted fuel _ ((if (rooted && (render rooted s).length != 1) ||
                (!rooted && (render rooted s).length != 0) then render rooted s ++ ['/']
                else render rooted s) ++ c :: t.takeWhile (fun d => !IsPathSeparator d))
                (dotdotOf rooted s) = _
            rw [hpush]
            exact ih _ _ hlen hk

theorem splitBy_free (sep : Char → Bool) (l : List Char) :
    ∀ e ∈ splitBy sep l, ∀ c ∈ e, sep c = false := by
  induction l with
  | nil => simp [splitBy]
  | cons d r ih =>
    intro e he c hc
    by_cases hd : sep d = true
    · simp only [splitBy, hd, if_true, List.mem_cons] at he
      rcases he with rfl | he
      · simp at hc
      · exact ih e he c hc
    · simp only [Bool.not_eq_true] at hd
      have hne := splitBy_ne_nil sep r
      cases hsp : splitBy sep r with
      | nil => exact absurd hsp hne
      | cons x xs =>
        rw [hsp] at ih
        simp only [splitBy, hd, hsp, List.headD_cons, List.tail_cons, List.mem_cons,
          Bool.false_eq_true, if_false] at he
        rcases he with rfl | he
        · simp only [List.mem_cons] at hc
          rcases hc with rfl | hc
          · exact hd
          · exact ih x (by simp) c hc
        · exact ih e (by simp [he]) c hc

theorem take_dropLast (base : List String) (k : Nat) :
    (base.take (base.length - k)).dropLast = base.take (base.length - (k + 1)) := by
  rw [List.dropLast_eq_take, List.take_take, List.length_take]
  congr 1
  omega

theorem den_keep (rooted : Bool) (base : List String) (s : Kept) (e : List Char)
    (h : s.WF rooted) (hb : rooted = true → base = []) :
    (keep rooted s e).den base = walk (s.den base) e := by
  unfold keep walk
  by_cases h1 : e = [] ∨ e = ['.']
  · simp [h1]
  · rw [if_neg h1, if_neg h1]
    by_cases h2 : e = ['.', '.']
    · rw [if_pos h2, if_pos h2]
      by_cases hs : s.segs = []
      · rw [if_pos hs]
        cases rooted with
        | true =>
          have hb0 : base = [] := hb rfl
          simp [Kept.den, hs, hb0]
        | false =>
          simp only [Kept.den, hs, List.map_nil, List.append_nil, Bool.false_eq_true, if_false]
          exact (take_dropLast base s.ups).symm
      · rw [if_neg hs]
        simp only [Kept.den]
        rw [List.dropLast_append_of_ne_nil _ (by simpa using hs), List.map_dropLast]
    · rw [if_neg h2, if_neg h2]
      simp [Kept.den]

theorem den_foldl (rooted : Bool) (base : List String) (hb : rooted = true → base = []) :
    ∀ (els : List (List Char)) (s : Kept), s.WF rooted →
      (∀ e ∈ els, ∀ c ∈ e, IsPathSeparator c = false) →
      (els.foldl (keep rooted) s).den base = els.foldl walk (s.den base) := by
  intro els
  induction els with
  | nil => intro s _ _; rfl
  | cons e es ih =>
    intro s hwf hfree
    simp only [List.foldl_cons]
    rw [ih (keep rooted s e) (keep_WF rooted s e hwf (hfree e (by simp)))
      (fun x hx => hfree x (by simp [hx])), den_keep rooted base s e hwf hb]

theorem walk_dots (base : List String) (k : Nat) :
    (List.replicate k ['.', '.']).foldl walk base = base.take (base.length - k) := by
  induction k with
  | zero => simp
  | succ k ih =>
    rw [List.replicate_succ', List.foldl_append, ih]
    simp only [List.foldl_cons, List.foldl_nil, walk]
    simp only [List.cons_ne_nil, List.cons.injEq, List.cons_ne_self, and_false, or_self,
      if_false, if_true]
    exact take_dropLast base k

theorem walk_proper (dir : List String) (segs : List (List Char)) (h : ∀ e ∈ segs, Proper e) :
    segs.foldl walk dir = dir ++ segs.map String.mk := by
  induction segs generalizing dir with
  | nil => simp
  | cons e es ih =>
    have hp := h e (by simp)
    have hw : walk dir e = dir ++ [String.mk e] := by
      simp [walk, hp.1, hp.2.1, hp.2.2.1]
    simp only [List.foldl_cons, hw]
    rw [ih _ (fun x hx => h x (by simp [hx]))]
    simp

theorem walk_all (base : List String) (s : Kept) (h : ∀ e ∈ s.segs, Proper e) :
    s.all.foldl walk base = s.den base := by
  unfold Kept.all Kept.dots Kept.den
  rw [List.foldl_append, walk_dots, walk_proper _ _ h]

theorem walk_nil (dir : List String) : walk dir [] = dir := by
  simp [walk]

theorem walk_elements_dot (dir : List String) : (elements ['.']).foldl walk dir = dir := by
  have : elements ['.'] = [['.']] := by decide
  rw [this]
  simp [walk]

theorem walk_elements_nil (dir : List String) : (elements []).foldl walk dir = dir := by
  have : elements [] = [[]] := rfl
  rw [this]
  simp [walk]

theorem joined_head (a : List (List Char)) (hne : ∀ e ∈ a, e ≠ [])
    (hfree : ∀ e ∈ a, ∀ c ∈ e, IsPathSeparator c = false) :
    (joined a).head? ≠ some '/' := by
  cases a with
  | nil => simp [joined]
  | cons e es =>
    have he : e ≠ [] := hne e (by simp)
    have hf := hfree e (by simp)
    cases e with
    | nil => exact absurd rfl he
    | cons c cs =>
      have hc : IsPathSeparator c = false := hf c (by simp)
      have hh : (joined ((c :: cs) :: es)).head? = some c := by
        cases es with
        | nil => rfl
        | cons y ys => rfl
      rw [hh]
      intro h0
      simp only [Option.some.injEq] at h0
      subst h0
      exact absurd hc (by decide)

theorem walk_render_rooted (s : Kept) (h : s.WF true) :
    (elements (render true s)).foldl walk [] = s.den [] := by
  have hr : render true s = '/' :: joined s.all := rfl
  rw [hr]
  unfold elements
  rw [splitBy_cons_sep _ '/' _ (by decide)]
  simp only [List.foldl_cons, walk_nil]
  by_cases hA : s.all = []
  · have hs : s.segs = [] := by
      unfold Kept.all at hA
      exact (List.append_eq_nil.1 hA).2
    simp [hA, joined, splitBy, walk_nil, Kept.den, hs]
  · have := elements_joined s.all hA (all_free true s h)
    unfold elements at this
    rw [this]
    exact walk_all [] s h.2

theorem walk_render_free (cwd : List String) (s : Kept) (h : s.WF false) :
    (elements (if render false s = [] then ['.'] else render false s)).foldl walk cwd
      = s.den cwd := by
  have hr : render false s = joined s.all := by simp [render, lead]
  rw [hr]
  by_cases hA : s.all = []
  · have hs : s.segs = [] := by
      unfold Kept.all at hA
      exact (List.append_eq_nil.1 hA).2
    have hu : s.ups = 0 := by
      unfold Kept.all Kept.dots at hA
      have := (List.append_eq_nil.1 hA).1
      simpa using this
    simp only [hA, joined, if_true, walk_elements_dot]
    simp [Kept.den, hs, hu]
  · have hne : joined s.all ≠ [] := by
      intro h0
      exact hA ((joined_eq_nil s.all (all_ne false s h)).1 h0)
    rw [if_neg hne, elements_joined s.all hA (all_free false s h)]
    exact walk_all cwd s h.2

theorem den_start (base : List String) : Kept.den base ⟨0, []⟩ = base := by
  simp [Kept.den]

theorem wf_start (rooted : Bool) : Kept.WF rooted ⟨0, []⟩ := by
  refine ⟨fun _ => rfl, ?_⟩
  intro e he
  simp at he

theorem cleanChars_rooted (c : Char) (rest : List Char) (hc : IsPathSeparator c = true) :
    cleanChars (c :: rest)
      = render true ((elements rest).foldl (keep true) ⟨0, []⟩) := by
  have h0 : cleanLoop true (c :: rest).length rest ['/'] 1
      = render true ((elements rest).foldl (keep true) ⟨0, []⟩) :=
    cleanLoop_eq true (c :: rest).length rest ⟨0, []⟩ (by simp) (wf_start true)
  have hne : render true ((elements rest).foldl (keep true) ⟨0, []⟩) ≠ [] := by
    simp [render, lead]
  simp only [cleanChars, hc, if_true, h0, if_neg hne]

theorem cleanChars_free (c : Char) (rest : List Char) (hc : IsPathSeparator c = false) :
    cleanChars (c :: rest)
      = (if render false ((elements (c :: rest)).foldl (keep false) ⟨0, []⟩) = [] then ['.']
         else render false ((elements (c :: rest)).foldl (keep false) ⟨0, []⟩)) := by
  have h0 : cleanLoop false (c :: rest).length (c :: rest) [] 0
      = render false ((elements (c :: rest)).foldl (keep false) ⟨0, []⟩) :=
    cleanLoop_eq false (c :: rest).length (c :: rest) ⟨0, []⟩ (le_refl _) (wf_start false)
  simp only [cleanChars, hc, Bool.false_eq_true, if_false, h0]

theorem foldl_keep_WF (rooted : Bool) :
    ∀ (els : List (List Char)) (s : Kept), s.WF rooted →
      (∀ e ∈ els, ∀ c ∈ e, IsPathSeparator c = false) → (els.foldl (keep rooted) s).WF rooted := by
  intro els
  induction els with
  | nil => intro s h _; exact h
  | cons e es ih =>
    intro s h hfree
    exact ih _ (keep_WF rooted s e h (hfree e (by simp))) (fun x hx => hfree x (by simp [hx]))

/-- Cleaning a path does not change where it leads. -/
theorem resolve_Clean (cwd : List String) (path : String) :
    resolve cwd (Clean path) = resolve cwd path := by
  unfold resolve Clean
  simp only
  cases hp : path.data with
  | nil =>
    simp only [cleanChars, walk_elements_dot, walk_elements_nil]
    simp
  | cons c rest =>
    by_cases hc : IsPathSeparator c = true
    · have hc2 : c = '/' := by simpa [IsPathSeparator] using hc
      rw [cleanChars_rooted c rest hc]
      have hwf := foldl_keep_WF true (elements rest) ⟨0, []⟩ (wf_start true)
        (splitBy_free _ rest)
      have hhead : (render true ((elements rest).foldl (keep true) ⟨0, []⟩)).head? = some '/' := rfl
      rw [hhead, if_pos rfl, walk_render_rooted _ hwf,
        den_foldl true [] (fun _ => rfl) (elements rest) _ (wf_start true) (splitBy_free _ rest),
        den_start]
      subst hc2
      simp only [List.head?_cons, if_true]
      unfold elements
      rw [splitBy_cons_sep _ '/' _ (by decide)]
      simp [walk_nil]
    · simp only [Bool.not_eq_true] at hc
      have hc2 : c ≠ '/' := by
        intro h0
        subst h0
        exact absurd hc (by decide)
      rw [cleanChars_free c rest hc]
      have hwf := foldl_keep_WF false (elements (c :: rest)) ⟨0, []⟩ (wf_start false)
        (splitBy_free _ (c :: rest))
      have hhead : (if render false ((elements (c :: rest)).foldl (keep false) ⟨0, []⟩) = []
          then ['.'] else render false ((elements (c :: rest)).foldl (keep false) ⟨0, []⟩)).head?
          ≠ some '/' := by
        split
        · simp
        · have hr : ∀ s : Kept, render false s = joined s.all := by
            intro s
            simp [render, lead]
          rw [hr]
          exact joined_head _ (all_ne false _ hwf) (all_free false _ hwf)
      rw [if_neg hhead, walk_render_free cwd _ hwf,
        den_foldl false cwd (fun h => by simp at h) (elements (c :: rest)) _ (wf_start false)
          (splitBy_free _ (c :: rest)), den_start]
      simp [hc2]

/-! ### `filepath.Base` -/

theorem take_succ_getD (path : List Char) (n : Nat) (h : n < path.length) :
    path.take (n + 1) = path.take n ++ [path.getD n '/'] := by
  rw [List.take_succ, List.getD_eq_getElem _ _ h, List.getElem?_eq_getElem h]
  rfl

theorem stripTrailingSeparators_eq (path : List Char) :
    ∀ n, n ≤ path.length →
      stripTrailingSeparators path n = (path.take n).rdropWhile IsPathSeparator := by
  intro n
  induction n with
  | zero => intro _; simp [stripTrailingSeparators]
  | succ n ih =>
    intro hn
    rw [take_succ_getD path n (by omega), List.rdropWhile_concat]
    unfold stripTrailingSeparators
    by_cases hc : IsPathSeparator (path.getD n '/') = true
    · rw [if_pos hc, if_pos hc]
      exact ih (by omega)
    · rw [if_neg hc, if_neg hc, take_succ_getD path n (by omega)]

theorem lastElementStart_le (path : List Char) : ∀ n, lastElementStart path n ≤ n := by
  intro n
  induction n with
  | zero => simp [lastElementStart]
  | succ n ih =>
    unfold lastElementStart
    split
    · omega
    · omega

theorem lastElementStart_eq (path : List Char) :
    ∀ n, n ≤ path.length →
      (path.take n).drop (lastElementStart path n)
        = (path.take n).rtakeWhile (fun d => !IsPathSeparator d) := by
  intro n
  induction n with
  | zero => intro _; simp [lastElementStart]
  | succ n ih =>
    intro hn
    rw [take_succ_getD path n (by omega), List.rtakeWhile_concat]
    unfold lastElementStart
    by_cases hc : (!IsPathSeparator (path.getD n '/')) = true
    · rw [if_pos hc, if_pos hc, ← ih (by omega)]
      have hle := lastElementStart_le path n
      rw [List.drop_append_of_le_length (by rw [List.length_take]; omega)]
    · rw [if_neg hc, if_neg hc]
      apply List.drop_of_length_le
      simp

/-- The function `filepath.Base` in one line: drop the trailing slashes, keep what follows the last
slash, and write `.` for an empty path and `/` for a path of slashes only. -/
theorem baseChars_eq (path : List Char) :
    baseChars path =
      if path = [] then ['.']
      else if (path.rdropWhile IsPathSeparator).rtakeWhile (fun d => !IsPathSeparator d) = []
        then ['/']
        else (path.rdropWhile IsPathSeparator).rtakeWhile (fun d => !IsPathSeparator d) := by
  unfold baseChars
  by_cases hp : path = []
  · simp [hp]
  · rw [if_neg hp, if_neg hp]
    have h1 := stripTrailingSeparators_eq path path.length (le_refl _)
    rw [List.take_length] at h1
    simp only
    rw [h1]
    have h2 := lastElementStart_eq (path.rdropWhile IsPathSeparator)
      (path.rdropWhile IsPathSeparator).length (le_refl _)
    rw [List.take_length] at h2
    rw [h2]

theorem rtakeWhile_free (l : List Char) :
    ∀ c ∈ l.rtakeWhile (fun d => !IsPathSeparator d), IsPathSeparator c = false := by
  intro c hc
  have := List.mem_rtakeWhile_imp hc
  simpa using this

/-- The result of `filepath.Base` is the single slash or a non-empty text without a
slash. -/
theorem baseChars_shape (path : List Char) :
    baseChars path = ['/'] ∨
      (baseChars path ≠ [] ∧ ∀ c ∈ baseChars path, IsPathSeparator c = false) := by
  rw [baseChars_eq]
  by_cases hp : path = []
  · right
    rw [if_pos hp]
    refine ⟨by simp, ?_⟩
    intro c hc
    simp only [List.mem_singleton] at hc
    subst hc
    decide
  · rw [if_neg hp]
    split
    · left; rfl
    · next h => exact Or.inr ⟨h, rtakeWhile_free _⟩

/-- A path of slashes only has the base `/`, and only such a path. -/
theorem baseChars_eq_slash (path : List Char) :
    baseChars path = ['/'] ↔ path ≠ [] ∧ ∀ c ∈ path, IsPathSeparator c = true := by
  rw [baseChars_eq]
  by_cases hp : path = []
  · simp [hp]
  · rw [if_neg hp]
    constructor
    · intro h
      refine ⟨hp, ?_⟩
      by_cases hl : (path.rdropWhile IsPathSeparator).rtakeWhile (fun d => !IsPathSeparator d) = []
      · by_cases hd : path.rdropWhile IsPathSeparator = []
        · exact List.rdropWhile_eq_nil_iff.1 hd
        · exfalso
          have h1 := List.rdropWhile_last_not IsPathSeparator path hd
          have h2 := (List.rtakeWhile_eq_nil_iff.1 hl) hd
          simp only [Bool.not_eq_true, Bool.not_eq_true', Bool.not_eq_false] at h1 h2
          rw [h1] at h2
          exact absurd h2 (by decide)
      · rw [if_neg hl] at h
        exfalso
        have := rtakeWhile_free (path.rdropWhile IsPathSeparator) '/' (by rw [h]; simp)
        exact absurd this (by decide)
    · intro h
      have hd : path.rdropWhile IsPathSeparator = [] := List.rdropWhile_eq_nil_iff.2 h.2
      simp [hd]

/-- A non-empty text without a slash is its own base. -/
theorem baseChars_self (e : List Char) (hne : e ≠ [])
    (hfree : ∀ c ∈ e, IsPathSeparator c = false) : baseChars e = e := by
  rw [baseChars_eq, if_neg hne]
  have hlast : ¬ IsPathSeparator (e.getLast hne) = true := by
    rw [hfree _ (List.getLast_mem hne)]
    decide
  have h1 : e.rdropWhile IsPathSeparator = e :=
    List.rdropWhile_eq_self_iff.2 (fun _ => hlast)
  have h2 : e.rtakeWhile (fun d => !IsPathSeparator d) = e :=
    List.rtakeWhile_eq_self_iff.2 (fun x hx => by simp [hfree x hx])
  rw [h1, h2, if_neg hne]

theorem rtakeWhile_append_sep (pre e : List Char) (c : Char) (hc : IsPathSeparator c = true)
    (hfree : ∀ d ∈ e, IsPathSeparator d = false) :
    (pre ++ c :: e).rtakeWhile (fun d => !IsPathSeparator d) = e := by
  unfold List.rtakeWhile
  rw [List.reverse_append, List.reverse_cons, List.append_assoc, List.takeWhile_append_of_pos]
  · simp [List.takeWhile, hc]
  · intro d hd
    simp [hfree d (List.mem_reverse.1 hd)]

/-- What follows the last slash is the base, when it is not empty. -/
theorem baseChars_append (pre e : List Char) (hne : e ≠ [])
    (hfree : ∀ c ∈ e, IsPathSeparator c = false) : baseChars (pre ++ '/' :: e) = e := by
  rw [baseChars_eq, if_neg (by simp)]
  have hlast : ¬ IsPathSeparator ((pre ++ '/' :: e).getLast (by simp)) = true := by
    have : (pre ++ '/' :: e).getLast (by simp) = e.getLast hne := by
      rw [List.getLast_append_of_ne_nil (by simp), List.getLast_cons hne]
    rw [this, hfree _ (List.getLast_mem hne)]
    decide
  have h1 : (pre ++ '/' :: e).rdropWhile IsPathSeparator = pre ++ '/' :: e :=
    List.rdropWhile_eq_self_iff.2 (fun _ => hlast)
  rw [h1, rtakeWhile_append_sep pre e '/' (by decide) hfree, if_neg hne]

theorem rdropWhile_append_rtakeWhile (p : Char → Bool) (l : List Char) :
    l.rdropWhile p ++ l.rtakeWhile p = l := by
  unfold List.rdropWhile List.rtakeWhile
  rw [← List.reverse_append, List.takeWhile_append_dropWhile, List.reverse_reverse]

/-- The last element of a path is what follows its last slash. -/
theorem getLastD_elements (l : List Char) :
    (elements l).getLastD [] = l.rtakeWhile (fun d => !IsPathSeparator d) := by
  have hsplit := rdropWhile_append_rtakeWhile (fun d => !IsPathSeparator d) l
  have hfree := rtakeWhile_free l
  by_cases ha : l.rdropWhile (fun d => !IsPathSeparator d) = []
  · have hl : l = l.rtakeWhile (fun d => !IsPathSeparator d) := by
      rw [ha] at hsplit
      simpa using hsplit.symm
    have h1 : elements l = [l.rtakeWhile (fun d => !IsPathSeparator d)] :=
      (congrArg elements hl).trans (splitBy_of_free _ _ hfree)
    rw [h1]
    rfl
  · have hlast := List.rdropWhile_last_not (fun d => !IsPathSeparator d) l ha
    have hsep : IsPathSeparator ((l.rdropWhile (fun d => !IsPathSeparator d)).getLast ha) = true := by
      simpa using hlast
    have hl : l = (l.rdropWhile (fun d => !IsPathSeparator d)).dropLast
        ++ (l.rdropWhile (fun d => !IsPathSeparator d)).getLast ha
          :: l.rtakeWhile (fun d => !IsPathSeparator d) := by
      conv_lhs => rw [← hsplit, ← List.dropLast_append_getLast ha]
      simp
    have h1 : elements l = elements (l.rdropWhile (fun d => !IsPathSeparator d)).dropLast
        ++ [l.rtakeWhile (fun d => !IsPathSeparator d)] := by
      refine (congrArg elements hl).trans ?_
      unfold elements
      rw [splitBy_append_sep _ _ _ _ hsep, splitBy_of_free _ _ hfree]
    rw [h1, List.getLastD_concat]

theorem sanitize_eq_none (raw : String) :
    sanitize raw = none ↔ baseChars raw.data = ['.'] ∨ baseChars raw.data = ['.', '.'] := by
  unfold sanitize
  simp only [Bool.or_eq_true, beq_iff_eq]
  constructor
  · intro h
    split at h
    · next hc =>
      rcases hc with hc | hc
      · left
        exact String.ext_iff.1 hc
      · right
        exact String.ext_iff.1 hc
    · simp at h
  · intro h
    have hc : Base raw = "." ∨ Base raw = ".." := by
      rcases h with h | h
      · left
        exact String.ext h
      · right
        exact String.ext h
    rw [if_pos hc]

theorem sanitize_eq_some (raw name : String) :
    sanitize raw = some name ↔
      name.data = baseChars raw.data ∧ baseChars raw.data ≠ ['.']
        ∧ baseChars raw.data ≠ ['.', '.'] := by
  unfold sanitize
  simp only [Bool.or_eq_true, beq_iff_eq]
  constructor
  · intro h
    split at h
    · simp at h
    · next hc =>
      simp only [Option.some.injEq] at h
      refine ⟨by rw [← h]; rfl, ?_, ?_⟩
      · intro h0
        exact hc (Or.inl (String.ext h0))
      · intro h0
        exact hc (Or.inr (String.ext h0))
  · intro h
    have hc : ¬ (Base raw = "." ∨ Base raw = "..") := by
      intro h0
      rcases h0 with h0 | h0
      · exact h.2.1 (String.ext_iff.1 h0)
      · exact h.2.2 (String.ext_iff.1 h0)
    rw [if_neg hc]
    exact congrArg some (String.ext h.1.symm)

theorem isPathSeparator_false (c : Char) : IsPathSeparator c = false ↔ c ≠ '/' := by
  simp [IsPathSeparator]

theorem isPathSeparator_true (c : Char) : IsPathSeparator c = true ↔ c = '/' := by
  simp [IsPathSeparator]

/-- The claim C1 as it is written fails at the raw names `a/` and `/`: the final path
segment of either is empty, yet the check accepts both. -/
theorem check_accepts_empty_segment :
    ¬ (sanitize "a/" = none ↔
        (finalSegment "a/" = "" ∨ finalSegment "a/" = "." ∨ finalSegment "a/" = ".."))
    ∧ ¬ (sanitize "/" = none ↔
        (finalSegment "/" = "" ∨ finalSegment "/" = "." ∨ finalSegment "/" = "..")) := by
  decide

/-- Claim C1, amended: for every raw name that is not made of slashes only, the filename
check rejects the name exactly when it is empty or, once its trailing slashes are
removed, its final path segment is `.` or `..`; every other such name is accepted and
handed on as that segment.  The raw names `.`, `..` and the empty name are rejected, and a
rejected name is answered with status 400 by `downloadFile`, `deleteFile` and
`uploadFile`. -/
theorem check_rejects_iff (raw : String) (hraw : raw = "" ∨ ∃ c ∈ raw.data, c ≠ '/') :
    (sanitize raw = none ↔
      raw = "" ∨ finalSegment (trimSlashes raw) = "." ∨ finalSegment (trimSlashes raw) = "..")
    ∧ (sanitize raw ≠ none → sanitize raw = some (finalSegment (trimSlashes raw)))
    ∧ (sanitize "." = none ∧ sanitize ".." = none ∧ sanitize "" = none)
    ∧ (sanitize raw = none →
        (∀ (fs : FS) (c : Context) (root : String), c.Param "filename" = raw →
          (downloadFile fs c root).1.status = StatusBadRequest)
        ∧ (∀ (env : Faults) (fs : FS) (c : Context) (root : String), c.Param "filename" = raw →
          (deleteFile env fs c root).1.status = StatusBadRequest)
        ∧ (∀ (env : Faults) (now : Nat) (fs : FS) (req : UploadRequest) (root : String)
            (form : List (String × FileHeader)) (header : FileHeader),
          ParseMultipartForm req MaxFileSize = Except.ok form →
          FormFile form "file" = Except.ok header → header.Filename = raw →
          (uploadFile env now fs req root).1.status = StatusBadRequest)) := by
  have hfin : (finalSegment (trimSlashes raw)).data
      = (raw.data.rdropWhile IsPathSeparator).rtakeWhile (fun d => !IsPathSeparator d) :=
    getLastD_elements _
  refine ⟨?_, ?_, ⟨by decide, by decide, by decide⟩, ?_⟩
  · rw [sanitize_eq_none, baseChars_eq]
    by_cases hp : raw.data = []
    · have : raw = "" := String.ext hp
      simp [hp, this]
    · have hne : raw ≠ "" := fun h0 => hp (String.ext_iff.1 h0)
      rw [if_neg hp]
      simp only [hne, false_or, String.ext_iff, hfin]
      split
      · next h0 =>
        rw [h0]
        have h1 : ("." : String).data = ['.'] := rfl
        have h2 : (".." : String).data = ['.', '.'] := rfl
        simp [h1, h2]
      · rfl
  · intro hacc
    cases hs : sanitize raw with
    | none => exact absurd hs hacc
    | some name =>
      have hsome := (sanitize_eq_some _ _).1 hs
      have hne : raw.data ≠ [] := by
        intro h0
        apply hsome.2.1
        rw [h0]
        rfl
      have hnot : baseChars raw.data ≠ ['/'] := by
        intro h0
        have hall := ((baseChars_eq_slash raw.data).1 h0).2
        rcases hraw with h1 | ⟨c, hc, hcne⟩
        · exact hne (String.ext_iff.1 h1)
        · exact hcne ((isPathSeparator_true c).1 (hall c hc))
      have hb := baseChars_eq raw.data
      rw [if_neg hne] at hb
      split at hb
      · exact absurd hb hnot
      · exact congrArg some (String.ext (hsome.1.trans (hb.trans hfin.symm)))
  · intro h
    refine ⟨?_, ?_, ?_⟩
    · intro fs c root hp
      simp only [downloadFile, hp, h]
      rfl
    · intro env fs c root hp
      simp only [deleteFile, hp, h]
      rfl
    · intro env now fs req root form header h1 h2 h3
      rw [← h3] at h
      simp only [uploadFile, h1, h2, h]
      rfl

/-- The amended claim C1 at the raw name `a/..`, which is rejected. -/
theorem check_rejects_iff_witness : sanitize "a/.." = none :=
  (check_rejects_iff "a/.." (Or.inr ⟨'a', by decide, by decide⟩)).1.2
    (Or.inr (Or.inr (by decide)))

/-- The claim C2 as it is written fails at the raw name `/`: the check accepts it and the
name it hands on is the separator itself. -/
theorem sanitized_slash_is_separator :
    sanitize "/" = some "/" ∧ '/' ∈ ("/" : String).data := by
  decide

/-- Claim C2, amended: for every raw name that the filename check accepts and that has a
character other than the slash, the sanitized name contains no path separator, is not
empty, and is neither `.` nor `..`. -/
theorem sanitized_shape (raw name : String) (h : sanitize raw = some name)
    (hraw : ∃ c ∈ raw.data, c ≠ '/') :
    (∀ c ∈ name.data, c ≠ '/') ∧ name ≠ "" ∧ name ≠ "." ∧ name ≠ ".." := by
  rw [sanitize_eq_some] at h
  obtain ⟨hn, hd1, hd2⟩ := h
  have hshape : baseChars raw.data ≠ [] ∧ ∀ c ∈ baseChars raw.data, IsPathSeparator c = false := by
    rcases baseChars_shape raw.data with hs | hs
    · exfalso
      obtain ⟨d, hd, hne⟩ := hraw
      have := ((baseChars_eq_slash raw.data).1 hs).2 d hd
      exact hne ((isPathSeparator_true d).1 this)
    · exact hs
  refine ⟨?_, ?_, ?_, ?_⟩
  · intro c hc
    rw [hn] at hc
    exact (isPathSeparator_false c).1 (hshape.2 c hc)
  · intro h0
    rw [String.ext_iff, hn] at h0
    exact hshape.1 h0
  · intro h0
    rw [String.ext_iff, hn] at h0
    exact hd1 h0
  · intro h0
    rw [String.ext_iff, hn] at h0
    exact hd2 h0

/-- The amended claim C2 at the raw name `../../etc/passwd`. -/
theorem sanitized_shape_witness :
    (∀ c ∈ ("passwd" : String).data, c ≠ '/') ∧ ("passwd" : String) ≠ ""
      ∧ ("passwd" : String) ≠ "." ∧ ("passwd" : String) ≠ ".." :=
  sanitized_shape "../../etc/passwd" "passwd" (by decide) ⟨'.', by decide, by decide⟩

/-- The claim C4 as it is written fails: with the prefix `a` and the segment `b` the name
`a\b` is not reduced to `b`; an empty segment after a slash is not what the check yields,
and neither is the segment `.`. -/
theorem check_keeps_backslash :
    ¬ (sanitize ("a" ++ "/" ++ "b") = some "b" ∧ sanitize ("a" ++ "\\" ++ "b") = some "b")
    ∧ sanitize ("a" ++ "\\" ++ "b") = some "a\\b"
    ∧ sanitize ("a" ++ "/" ++ "") ≠ some ""
    ∧ sanitize ("a" ++ "/" ++ ".") ≠ some "." := by
  decide

/-- Claim C4, amended: the filename check reduces a name to what follows its last forward
slash: for any prefix `p` and any segment `s` that is not empty, not `.`, not `..` and
has no forward slash, the name `p/s` yields `s`.  The backslash is no separator: when `p`
has no forward slash either, the name `p\s` is kept whole. -/
theorem check_keeps_last_segment (p s : String) (hne : s ≠ "") (hfree : '/' ∉ s.data)
    (h1 : s ≠ ".") (h2 : s ≠ "..") :
    sanitize (p ++ "/" ++ s) = some s
    ∧ ('/' ∉ p.data → sanitize (p ++ "\\" ++ s) = some (p ++ "\\" ++ s)) := by
  have hne' : s.data ≠ [] := fun h0 => hne (String.ext h0)
  have hfree' : ∀ c ∈ s.data, IsPathSeparator c = false := by
    intro c hc
    rw [isPathSeparator_false]
    intro h0
    subst h0
    exact hfree hc
  have hd1 : s.data ≠ ['.'] := fun h0 => h1 (String.ext h0)
  have hd2 : s.data ≠ ['.', '.'] := fun h0 => h2 (String.ext h0)
  constructor
  · rw [sanitize_eq_some]
    have hdata : (p ++ "/" ++ s).data = p.data ++ '/' :: s.data := by
      simp [String.data_append]
    rw [hdata, baseChars_append p.data s.data hne' hfree']
    exact ⟨rfl, hd1, hd2⟩
  · intro hp
    rw [sanitize_eq_some]
    have hdata : (p ++ "\\" ++ s).data = p.data ++ '\\' :: s.data := by
      simp [String.data_append]
    have hmem : '\\' ∈ p.data ++ '\\' :: s.data := by simp
    have hall : ∀ c ∈ p.data ++ '\\' :: s.data, IsPathSeparator c = false := by
      intro c hc
      simp only [List.mem_append, List.mem_cons] at hc
      rcases hc with hc | hc | hc
      · rw [isPathSeparator_false]
        intro h0
        subst h0
        exact hp hc
      · subst hc
        decide
      · exact hfree' c hc
    rw [hdata, baseChars_self _ (by simp) hall]
    refine ⟨rfl, ?_, ?_⟩
    · intro h0
      rw [h0] at hmem
      exact absurd hmem (by decide)
    · intro h0
      rw [h0] at hmem
      exact absurd hmem (by decide)

/-- The amended claim C4 at the prefix `up` and the segment `x.txt`. -/
theorem check_keeps_last_segment_witness :
    sanitize ("up" ++ "/" ++ "x.txt") = some "x.txt"
    ∧ sanitize ("up" ++ "\\" ++ "x.txt") = some ("up" ++ "\\" ++ "x.txt") :=
  ⟨(check_keeps_last_segment "up" "x.txt" (by decide) (by decide) (by decide) (by decide)).1,
   (check_keeps_last_segment "up" "x.txt" (by decide) (by decide) (by decide) (by decide)).2
     (by decide)⟩

/-! ### `filepath.Join` -/

theorem Join_of_ne (root name : String) (h : root ≠ "") :
    Join [root, name] = Clean (root ++ "/" ++ name) := by
  have h1 : (root == "") = false := by simpa using h
  simp [Join, List.dropWhile, h1, String.intercalate, String.intercalate.go]

theorem Join_empty (name : String) (h : name ≠ "") : Join ["", name] = Clean name := by
  have h1 : (name == "") = false := by simpa using h
  simp [Join, List.dropWhile, h1, String.intercalate, String.intercalate.go]

theorem resolve_append (cwd : List String) (root name : String) (h : root ≠ "") :
    resolve cwd (root ++ "/" ++ name)
      = (elements name.data).foldl walk (resolve cwd root) := by
  have hne : root.data ≠ [] := fun h0 => h (String.ext h0)
  have hdata : (root ++ "/" ++ name).data = root.data ++ '/' :: name.data := by
    simp [String.data_append]
  have hhead : (root.data ++ '/' :: name.data).head? = root.data.head? := by
    cases hr : root.data with
    | nil => exact absurd hr hne
    | cons c cs => rfl
  unfold resolve
  rw [hdata, hhead]
  unfold elements
  rw [splitBy_append_sep _ _ _ '/' (by decide), List.foldl_append]

theorem walk_one (dir : List String) (name : String) (hp : Proper name.data) :
    (elements name.data).foldl walk dir = dir ++ [name] := by
  unfold elements
  rw [splitBy_of_free _ _ hp.2.2.2]
  simp [walk, hp.1, hp.2.1, hp.2.2.1]

/-- A real path element joined to a directory leads to the entry of that name in the
directory. -/
theorem resolve_Join_proper (cwd : List String) (root name : String) (hp : Proper name.data) :
    resolve cwd (Join [root, name]) = resolve cwd root ++ [name] := by
  by_cases h : root = ""
  · subst h
    have hne : name ≠ "" := fun h0 => hp.1 (String.ext_iff.1 h0)
    rw [Join_empty name hne, resolve_Clean]
    have hhead : name.data.head? ≠ some '/' := by
      cases hn : name.data with
      | nil => simp
      | cons c cs =>
        have := hp.2.2.2 c (by rw [hn]; simp)
        simp only [List.head?_cons, ne_eq, Option.some.injEq]
        exact (isPathSeparator_false c).1 this
    have h1 : resolve cwd name = (elements name.data).foldl walk cwd := by
      unfold resolve
      rw [if_neg hhead]
    have h2 : resolve cwd "" = cwd := by
      simp [resolve, elements, splitBy, walk]
    rw [h1, h2, walk_one cwd name hp]
  · rw [Join_of_ne root name h, resolve_Clean, resolve_append cwd root name h,
      walk_one _ name hp]

/-- The single slash joined to a directory leads to the directory itself. -/
theorem resolve_Join_slash (cwd : List String) (root : String) (h : root ≠ "") :
    resolve cwd (Join [root, "/"]) = resolve cwd root := by
  rw [Join_of_ne root "/" h, resolve_Clean, resolve_append cwd root "/" h]
  have : elements ("/" : String).data = [[], []] := by decide
  rw [this]
  simp [walk]

/-- A name the filename check accepts is the single slash or a real path element. -/
theorem sanitized_cases (raw name : String) (h : sanitize raw = some name) :
    name = "/" ∨ Proper name.data := by
  rw [sanitize_eq_some] at h
  obtain ⟨hn, hd1, hd2⟩ := h
  rcases baseChars_shape raw.data with hs | hs
  · left
    exact String.ext (hn.trans hs)
  · right
    rw [hn]
    exact ⟨hs.1, hd1, hd2, hs.2⟩

/-- Claim C3: for every storage root (a directory that `os.MkdirAll` can make, so not the
empty path) and every raw name, either the filename check rejects the name, or the path
`filepath.Join(UploadDir, filename)` leads to the storage root itself or to an entry
directly inside it: where the storage root leads is an initial part of where the joined
path leads, and the joined path goes at most one name further. -/
theorem join_stays_in_root (cwd : List String) (UploadDir raw : String) (hroot : UploadDir ≠ "") :
    sanitize raw = none ∨
      ∃ filename, sanitize raw = some filename
        ∧ resolve cwd UploadDir <+: resolve cwd (Join [UploadDir, filename])
        ∧ (resolve cwd (Join [UploadDir, filename])).length
            ≤ (resolve cwd UploadDir).length + 1 := by
  cases hs : sanitize raw with
  | none => exact Or.inl rfl
  | some filename =>
    right
    refine ⟨filename, rfl, ?_⟩
    rcases sanitized_cases raw filename hs with h | h
    · subst h
      rw [resolve_Join_slash cwd UploadDir hroot]
      exact ⟨List.prefix_refl _, by omega⟩
    · rw [resolve_Join_proper cwd UploadDir filename h]
      exact ⟨List.prefix_append _ _, by simp⟩

/-- Claim C3 at the storage root `./uploads` and the raw name `../../etc/passwd`. -/
theorem join_stays_in_root_witness :
    sanitize "../../etc/passwd" = none ∨
      ∃ filename, sanitize "../../etc/passwd" = some filename
        ∧ resolve ["srv"] "./uploads" <+: resolve ["srv"] (Join ["./uploads", filename])
        ∧ (resolve ["srv"] (Join ["./uploads", filename])).length
            ≤ (resolve ["srv"] "./uploads").length + 1 :=
  join_stays_in_root ["srv"] "./uploads" "../../etc/passwd" (by decide)

/-! ### Storage -/

theorem lookup_filter_self (k : List String) (l : List (List String × Node)) :
    (l.filter (fun e => e.1 != k)).lookup k = none := by
  induction l with
  | nil => rfl
  | cons e es ih =>
    by_cases h : e.1 = k
    · simp [List.filter, h, ih]
    · have h1 : (e.1 != k) = true := by simpa using h
      have h2 : (k == e.1) = false := by
        simp only [beq_eq_false_iff_ne, ne_eq]
        exact fun h0 => h h0.symm
      rw [List.filter_cons]
      simp only [h1, if_true]
      obtain ⟨a, b⟩ := e
      simp only [List.lookup_cons] at h2 ⊢
      rw [h2]
      exact ih

theorem lookup_filter_ne (k k2 : List String) (l : List (List String × Node)) (h : k2 ≠ k) :
    (l.filter (fun e => e.1 != k)).lookup k2 = l.lookup k2 := by
  induction l with
  | nil => rfl
  | cons e es ih =>
    obtain ⟨a, b⟩ := e
    by_cases h1 : a = k
    · have h2 : (k2 == a) = false := by
        simp only [beq_eq_false_iff_ne, ne_eq]
        rw [h1]
        exact h
      simp only [List.filter, h1, bne_self_eq_false, List.lookup_cons, ih]
      rw [← h1, h2]
    · have h3 : ((a, b).1 != k) = true := by simpa using h1
      rw [List.filter_cons]
      simp only [h3, if_true, List.lookup_cons, ih]

theorem respondJSON_status (code : Nat) (obj : JSON) : (respondJSON code obj).status = code :=
  rfl

theorem inits_dropLast_snoc (k : List String) (a : String) :
    (k ++ [a]).inits.dropLast = k.inits := by
  rw [List.inits_append]
  simp [List.inits]

theorem length_lt_of_mem_inits_dropLast (k p : List String) (h : p ∈ k.inits.dropLast) :
    p.length < k.length := by
  rcases List.eq_nil_or_concat k with hk | ⟨k2, a, hk⟩
  · subst hk
    simp [List.inits] at h
  · rw [List.concat_eq_append] at hk
    subst hk
    rw [inits_dropLast_snoc] at h
    have := ((List.mem_inits p k2).1 h).length_le
    simp
    omega

theorem blocked_congr (fs fs2 : FS) (key : List String)
    (h : ∀ p ∈ key.inits.dropLast, fs2.nodes.lookup p = fs.nodes.lookup p) :
    fs2.blocked key = fs.blocked key := by
  unfold FS.blocked
  generalize key.inits.dropLast = l at h
  induction l with
  | nil => rfl
  | cons x xs ih =>
    simp only [List.any_cons]
    rw [h x (by simp), ih (fun p hp => h p (by simp [hp]))]

theorem lookup_put_ne (fs : FS) (k p : List String) (n : Node) (h : p ≠ k) :
    (fs.put k n).nodes.lookup p = fs.nodes.lookup p := by
  unfold FS.put
  have h1 : (p == k) = false := by simpa using h
  simp only [List.lookup_cons, h1]
  exact lookup_filter_ne k p fs.nodes h

theorem lookup_put_self (fs : FS) (k : List String) (n : Node) :
    (fs.put k n).nodes.lookup k = some n := by
  unfold FS.put
  simp [List.lookup_cons]

theorem blocked_put (fs : FS) (k key : List String) (n : Node) (h : key.length ≤ k.length) :
    (fs.put k n).blocked key = fs.blocked key := by
  apply blocked_congr
  intro p hp
  have hlt := length_lt_of_mem_inits_dropLast key p hp
  apply lookup_put_ne
  intro h0
  subst h0
  omega

theorem blocked_erase (fs : FS) (k key : List String) (h : key.length ≤ k.length) :
    (fs.erase k).blocked key = fs.blocked key := by
  apply blocked_congr
  intro p hp
  have hlt := length_lt_of_mem_inits_dropLast key p hp
  unfold FS.erase
  apply lookup_filter_ne
  intro h0
  subst h0
  omega

theorem blocked_snoc (fs : FS) (k : List String) (a : String)
    (hb : fs.blocked k = false) (hd : fs.nodes.lookup k = some Node.dir) :
    fs.blocked (k ++ [a]) = false := by
  unfold FS.blocked at hb ⊢
  rw [inits_dropLast_snoc]
  have hk : k.inits = k.inits.dropLast ++ [k] := by
    rcases List.eq_nil_or_concat k with hk | ⟨k2, b, hk⟩
    · subst hk
      rfl
    · rw [List.concat_eq_append] at hk
      subst hk
      rw [inits_dropLast_snoc, List.inits_append]
      simp [List.inits]
  rw [hk, List.any_append, hb]
  simp [hd]

/-- What `os.Stat` finding a node amounts to. -/
theorem osStat_ok_iff (fs : FS) (name : String) (n : Node) :
    osStat fs name = Except.ok n ↔
      pathError name = none ∧ fs.blocked (resolve fs.cwd name) = false
        ∧ fs.nodes.lookup (resolve fs.cwd name) = some n := by
  unfold osStat
  cases hp : pathError name with
  | some e => simp
  | none =>
    simp only [true_and]
    cases hb : fs.blocked (resolve fs.cwd name) with
    | true => simp
    | false =>
      simp only [Bool.false_eq_true, if_false, true_and]
      cases hl : fs.nodes.lookup (resolve fs.cwd name) with
      | none => simp
      | some m => simp

/-- What `os.Stat` answering `ENOENT` amounts to for a path it accepts. -/
theorem osStat_missing (fs : FS) (name : String) (hp : pathError name = none)
    (hb : fs.blocked (resolve fs.cwd name) = false)
    (hl : fs.nodes.lookup (resolve fs.cwd name) = none) :
    osStat fs name = Except.error Errno.ENOENT := by
  unfold osStat
  simp only [hp, hb, hl, Bool.false_eq_true, if_false]

theorem stat_eq_some (fs : FS) (name : String) (n : Node) :
    fs.stat name = some n ↔ osStat fs name = Except.ok n := by
  unfold FS.stat
  cases osStat fs name with
  | error e => simp
  | ok m => simp

theorem pathError_ne_empty (name : String) (h : pathError name = none) : name ≠ "" := by
  intro h0
  subst h0
  simp [pathError] at h

theorem osStat_erase (fs : FS) (name : String) (n : Node) (h : osStat fs name = Except.ok n) :
    osStat (fs.erase (resolve fs.cwd name)) name = Except.error Errno.ENOENT := by
  obtain ⟨hp, hb, _⟩ := (osStat_ok_iff fs name n).1 h
  apply osStat_missing
  · exact hp
  · have : (fs.erase (resolve fs.cwd name)).cwd = fs.cwd := rfl
    rw [this, blocked_erase fs _ _ (le_refl _)]
    exact hb
  · exact lookup_filter_self _ _

theorem osRemove_ok (fault : Option String) (fs fs1 : FS) (name : String)
    (h : osRemove fault fs name = Except.ok fs1) :
    (∃ n, osStat fs name = Except.ok n) ∧ fs1 = fs.erase (resolve fs.cwd name) := by
  unfold osRemove at h
  cases fault with
  | some err => simp at h
  | none =>
    simp only at h
    cases hs : osStat fs name with
    | error e => simp [hs] at h
    | ok n =>
      refine ⟨⟨n, rfl⟩, ?_⟩
      cases n with
      | dir =>
        simp only [hs] at h
        split at h
        · simpa using h.symm
        · simp at h
      | file content modTime =>
        simp only [hs] at h
        simpa using h.symm

/-- Claim C7: for every storage state and every requested name, when `deleteFile` answers
with status 200, `downloadFile` of the same name on the storage it leaves answers with
status 404. -/
theorem delete_then_download (env : Faults) (fs : FS) (cd cg : Context) (UploadDir : String)
    (hname : cg.Param "filename" = cd.Param "filename")
    (hok : (deleteFile env fs cd UploadDir).1.status = StatusOK) :
    (downloadFile (deleteFile env fs cd UploadDir).2 cg UploadDir).1.status = StatusNotFound := by
  unfold deleteFile at hok ⊢
  unfold downloadFile
  rw [hname]
  cases hs : sanitize (cd.Param "filename") with
  | none =>
    simp only [hs, respondJSON_status] at hok
    exact absurd hok (by decide)
  | some filename =>
    simp only [hs] at hok ⊢
    by_cases hst : osIsNotExist (osStat fs (Join [UploadDir, filename])) = true
    · simp only [hst, if_true, respondJSON_status] at hok
      exact absurd hok (by decide)
    · simp only [hst, Bool.false_eq_true, if_false] at hok ⊢
      cases hrm : osRemove env.remove fs (Join [UploadDir, filename]) with
      | error err =>
        simp only [hrm, respondJSON_status] at hok
        exact absurd hok (by decide)
      | ok fs1 =>
        simp only
        obtain ⟨⟨n, hn⟩, h1⟩ := osRemove_ok _ _ _ _ hrm
        have h2 : osStat fs1 (Join [UploadDir, filename]) = Except.error Errno.ENOENT := by
          rw [h1]
          exact osStat_erase fs _ n hn
        simp only [h2, osIsNotExist, if_true]
        rfl

/-- Claim C7 on a storage that holds `report.pdf`. -/
theorem delete_then_download_witness :
    (downloadFile
      (deleteFile noFaults
        ⟨["srv"], [(["srv", "uploads"], Node.dir),
          (["srv", "uploads", "report.pdf"], Node.file [97, 98, 99] 7)]⟩
        ⟨"/api/v1/file/file/report.pdf", [("filename", "report.pdf")]⟩ "uploads").2
      ⟨"/api/v1/file/download/report.pdf", [("filename", "report.pdf")]⟩ "uploads").1.status
      = StatusNotFound :=
  delete_then_download noFaults _ _ _ "uploads" (by decide) (by decide)

theorem matchFilename_param (fixed urlPath : String) (c : Context)
    (h : matchFilename fixed urlPath = some c) :
    (c.Param "filename").data ≠ [] ∧ '/' ∉ (c.Param "filename").data := by
  unfold matchFilename at h
  split at h
  · next hc =>
    simp only [Option.some.injEq] at h
    subst h
    have hp : Context.Param ⟨urlPath, [("filename", ⟨urlPath.data.drop fixed.length⟩)]⟩ "filename"
        = ⟨urlPath.data.drop fixed.length⟩ := by
      simp [Context.Param, List.lookup]
    rw [hp]
    exact ⟨hc.2.1, hc.2.2⟩
  · simp at h

set_option maxRecDepth 100000 in
/-- The claim C8 as it is written fails at a requested name of 300 letters `a` and at the
name `a`, NUL, `b`: either passes the filename check and names no entry in the empty
storage root, yet `os.Stat` answers with an error other than not-exist (the name is too
long, the name is invalid), the handler goes on to `c.File`, and the answer is status 500,
not 404. -/
theorem download_unreadable_name :
    (routeDownload ("/api/v1/file/download/" ++ String.mk (List.replicate 300 'a'))).map
        (fun c => sanitize (c.Param "filename")) = some (some (String.mk (List.replicate 300 'a')))
    ∧ emptyStore.nodes.lookup
        (resolve emptyStore.cwd "uploads" ++ [String.mk (List.replicate 300 'a')]) = none
    ∧ (downloadFile emptyStore
        ⟨"/api/v1/file/download/" ++ String.mk (List.replicate 300 'a'),
          [("filename", String.mk (List.replicate 300 'a'))]⟩ "uploads").1.status
        = StatusInternalServerError
    ∧ (routeDownload "/api/v1/file/download/a\x00b").map
        (fun c => sanitize (c.Param "filename")) = some (some "a\x00b")
    ∧ emptyStore.nodes.lookup (resolve emptyStore.cwd "uploads" ++ ["a\x00b"]) = none
    ∧ (downloadFile emptyStore
        ⟨"/api/v1/file/download/a\x00b", [("filename", "a\x00b")]⟩ "uploads").1.status
        = StatusInternalServerError := by
  decide

/-- Claim C8, amended: on a storage whose storage root is a directory, for every name
requested through the route `/download/:filename` that passes the filename check, whose
path under the storage root the operating system accepts (no NUL byte, no element of more
than 255 bytes, fewer than 4096 bytes in all) and whose sanitized form names no entry in
the storage root, `downloadFile` answers with status 404 and leaves the storage as it
is. -/
theorem download_missing (fs : FS) (urlPath : String) (c : Context) (UploadDir filename : String)
    (hroute : routeDownload urlPath = some c)
    (hcheck : sanitize (c.Param "filename") = some filename)
    (hroot : fs.stat UploadDir = some Node.dir)
    (hpath : pathError (Join [UploadDir, filename]) = none)
    (hmissing : fs.nodes.lookup (resolve fs.cwd UploadDir ++ [filename]) = none) :
    (downloadFile fs c UploadDir).1.status = StatusNotFound
      ∧ (downloadFile fs c UploadDir).2 = fs
      ∧ (downloadFile fs c UploadDir).1.status = 404
      ∧ (downloadFile fs c UploadDir).1.body
          = Body.json (JSON.object [("error", JSON.string "文件不存在"),
              ("message", JSON.string ("文件 '" ++ filename ++ "' 未找到"))]) := by
  obtain ⟨hne, hfree⟩ := matchFilename_param _ _ _ hroute
  have hfree2 : ∀ d ∈ (c.Param "filename").data, IsPathSeparator d = false := by
    intro d hd
    rw [isPathSeparator_false]
    intro h0
    subst h0
    exact hfree hd
  have hself := baseChars_self _ hne hfree2
  have hs := (sanitize_eq_some _ _).1 hcheck
  rw [hself] at hs
  have hp : Proper filename.data := by
    rw [hs.1]
    exact ⟨hne, hs.2.1, hs.2.2, hfree2⟩
  have hkey := resolve_Join_proper fs.cwd UploadDir filename hp
  obtain ⟨_, hrb, hrd⟩ := (osStat_ok_iff fs UploadDir Node.dir).1 ((stat_eq_some _ _ _).1 hroot)
  have hstat : osStat fs (Join [UploadDir, filename]) = Except.error Errno.ENOENT := by
    apply osStat_missing _ _ hpath
    · rw [hkey]
      exact blocked_snoc fs _ _ hrb hrd
    · rw [hkey]
      exact hmissing
  have hres : downloadFile fs c UploadDir
      = (respondJSON StatusNotFound (JSON.object [("error", JSON.string "文件不存在"),
          ("message", JSON.string ("文件 '" ++ filename ++ "' 未找到"))]), fs) := by
    unfold downloadFile
    simp only [hcheck, hstat, osIsNotExist, if_true]
  rw [hres]
  exact ⟨rfl, rfl, rfl, rfl⟩

/-- The amended claim C8 on the empty storage root and the name `never.txt`. -/
theorem download_missing_witness :
    (downloadFile emptyStore
        ⟨"/api/v1/file/download/never.txt", [("filename", "never.txt")]⟩ "uploads").1.status
      = 404
    ∧ (downloadFile emptyStore
        ⟨"/api/v1/file/download/never.txt", [("filename", "never.txt")]⟩ "uploads").2
      = emptyStore :=
  ⟨(download_missing emptyStore "/api/v1/file/download/never.txt" _ "uploads" "never.txt"
      (by rfl) (by decide) (by decide) (by decide) (by decide)).2.2.1,
   (download_missing emptyStore "/api/v1/file/download/never.txt" _ "uploads" "never.txt"
      (by rfl) (by decide) (by decide) (by decide) (by decide)).2.1⟩

/-- The claim C9 as it is written fails at a request whose form (one file part `big.bin`
of one byte, 200 bytes of framing) is followed by 104857600 bytes after the closing
boundary: the body is larger than `MaxFileSize`, yet the parser stops at the closing
boundary, the upload is answered with status 200 and the file is stored. -/
theorem upload_with_long_trailer :
    UploadRequest.bodyLength ⟨Except.ok [("file", ⟨"big.bin", [97]⟩)], 200, 104857600⟩
        > MaxFileSize
    ∧ (uploadFile noFaults 7 emptyStore
        ⟨Except.ok [("file", ⟨"big.bin", [97]⟩)], 200, 104857600⟩ "uploads").1.status = StatusOK
    ∧ (uploadFile noFaults 7 emptyStore
        ⟨Except.ok [("file", ⟨"big.bin", [97]⟩)], 200, 104857600⟩ "uploads").2.stat
          (Join ["uploads", "big.bin"]) = some (Node.file [97] 7) := by
  decide

/-- Claim C9, amended: for every upload request whose multipart form, up to and with its
closing boundary, is larger than `MaxFileSize` (104857600 bytes), and so for every request
with a file part larger than that, `uploadFile` answers with status 400 and the message
that names the 100MB limit, and the storage is left as it is. -/
theorem upload_too_large (env : Faults) (now : Nat) (fs : FS) (req : UploadRequest)
    (UploadDir : String) (h : req.formLength > MaxFileSize) :
    MaxFileSize = 104857600
    ∧ (uploadFile env now fs req UploadDir).1
        = respondJSON StatusBadRequest (JSON.object [("error", JSON.string "文件太大"),
            ("message", JSON.string "文件大小不能超过 100MB")])
    ∧ (uploadFile env now fs req UploadDir).1.status = 400
    ∧ (uploadFile env now fs req UploadDir).1.body
        = Body.json (JSON.object [("error", JSON.string "文件太大"),
            ("message", JSON.string "文件大小不能超过 100MB")])
    ∧ (uploadFile env now fs req UploadDir).2 = fs := by
  have hparse : ParseMultipartForm req MaxFileSize = Except.error "http: request body too large" := by
    unfold ParseMultipartForm
    rw [if_pos h]
  have hmsg : "文件大小不能超过 " ++ toString (MaxFileSize / (1 <<< 20)) ++ "MB"
      = "文件大小不能超过 100MB" := by decide
  have hres : uploadFile env now fs req UploadDir
      = (respondJSON StatusBadRequest (JSON.object [("error", JSON.string "文件太大"),
          ("message", JSON.string "文件大小不能超过 100MB")]), fs) := by
    unfold uploadFile
    simp only [hparse, hmsg]
  rw [hres]
  exact ⟨by decide, rfl, rfl, rfl, rfl⟩

/-- The amended claim C9 at a form of 104857601 bytes. -/
theorem upload_too_large_witness :
    (uploadFile noFaults 7 emptyStore
        ⟨Except.ok [("file", ⟨"big.bin", []⟩)], 104857601, 0⟩ "uploads").1.status = 400
    ∧ (uploadFile noFaults 7 emptyStore
        ⟨Except.ok [("file", ⟨"big.bin", []⟩)], 104857601, 0⟩ "uploads").2 = emptyStore :=
  ⟨(upload_too_large noFaults 7 emptyStore _ "uploads" (by decide)).2.2.1,
   (upload_too_large noFaults 7 emptyStore _ "uploads" (by decide)).2.2.2.2⟩

/-- A file part is part of the form: the form is at least as long as the content of any
of its file parts. -/
theorem content_le_formLength (req : UploadRequest) (form : List (String × FileHeader))
    (key : String) (header : FileHeader) (hparts : req.parts = Except.ok form)
    (hmem : (key, header) ∈ form) : header.content.length ≤ req.formLength := by
  unfold UploadRequest.formLength
  rw [hparts]
  have : header.content.length ≤ (form.map (fun p => p.2.content.length)).sum :=
    List.single_le_sum (fun x _ => Nat.zero_le x) _
      (List.mem_map.2 ⟨(key, header), hmem, rfl⟩)
  simp only
  omega

theorem osCreate_ok (fault : Option String) (now : Nat) (fs fs1 : FS) (name : String)
    (h : osCreate fault now fs name = Except.ok fs1) :
    pathError name = none ∧ fs.blocked (resolve fs.cwd name) = false
      ∧ fs.nodes.lookup (resolve fs.cwd name) ≠ some Node.dir
      ∧ fs1 = fs.put (resolve fs.cwd name) (Node.file [] now) := by
  unfold osCreate at h
  cases fault with
  | some err => simp at h
  | none =>
    simp only at h
    cases hp : pathError name with
    | some e => simp [hp] at h
    | none =>
      simp only [hp] at h
      cases hb : fs.blocked (resolve fs.cwd name) with
      | true => simp [hb] at h
      | false =>
        simp only [hb, Bool.false_eq_true, if_false] at h
        refine ⟨rfl, rfl, ?_, ?_⟩
        · intro h0
          rw [h0] at h
          simp at h
        · split at h
          · simp at h
          · split at h
            · simpa using h.symm
            · simp at h

theorem ioCopy_ok (fault : Option (Nat × String)) (now : Nat) (fs fs2 : FS) (name : String)
    (src : Bytes) (h : ioCopy fault now fs name src = (fs2, none)) :
    fs2 = fs.put (resolve fs.cwd name) (Node.file src now) := by
  unfold ioCopy at h
  cases fault with
  | some f =>
    obtain ⟨n, err⟩ := f
    simp at h
  | none =>
    simp only [Prod.mk.injEq, and_true] at h
    exact h.symm

theorem filter_ne_idem (k : List String) (l : List (List String × Node)) :
    (l.filter (fun e => e.1 != k)).filter (fun e => e.1 != k) = l.filter (fun e => e.1 != k) := by
  rw [List.filter_filter]
  congr 1
  funext e
  simp

theorem put_put (fs : FS) (k : List String) (a b : Node) : (fs.put k a).put k b = fs.put k b := by
  unfold FS.put
  simp only [FS.mk.injEq, List.cons.injEq, true_and]
  rw [List.filter_cons]
  simp only [bne_self_eq_false, Bool.false_eq_true, if_false]
  exact filter_ne_idem k fs.nodes

/-- What a successful upload leaves behind: the name passed the check, the operating
system accepts the joined path, and the storage holds the content under it. -/
theorem uploadFile_ok (env : Faults) (now : Nat) (fs : FS) (req : UploadRequest)
    (UploadDir : String) (form : List (String × FileHeader)) (header : FileHeader)
    (hform : ParseMultipartForm req MaxFileSize = Except.ok form)
    (hfile : FormFile form "file" = Except.ok header)
    (hok : (uploadFile env now fs req UploadDir).1.status = StatusOK) :
    ∃ filename, sanitize header.Filename = some filename
      ∧ pathError (Join [UploadDir, filename]) = none
      ∧ fs.blocked (resolve fs.cwd (Join [UploadDir, filename])) = false
      ∧ fs.nodes.lookup (resolve fs.cwd (Join [UploadDir, filename])) ≠ some Node.dir
      ∧ (uploadFile env now fs req UploadDir).2
          = fs.put (resolve fs.cwd (Join [UploadDir, filename])) (Node.file header.content now) := by
  unfold uploadFile at hok ⊢
  simp only [hform, hfile] at hok ⊢
  cases hs : sanitize header.Filename with
  | none =>
    simp only [hs, respondJSON_status] at hok
    exact absurd hok (by decide)
  | some filename =>
    simp only [hs] at hok ⊢
    cases hc : osCreate env.create now fs (Join [UploadDir, filename]) with
    | error err =>
      simp only [hc, respondJSON_status] at hok
      exact absurd hok (by decide)
    | ok fs1 =>
      simp only [hc] at hok ⊢
      obtain ⟨hpe, hbl, hnd, hfs1⟩ := osCreate_ok _ _ _ _ _ hc
      cases hcp : ioCopy env.copy now fs1 (Join [UploadDir, filename]) header.content with
      | mk fs2 res =>
        cases res with
        | some err =>
          simp only [hcp, respondJSON_status] at hok
          exact absurd hok (by decide)
        | none =>
          simp only [hcp]
          have h2 := ioCopy_ok _ _ _ _ _ _ hcp
          refine ⟨filename, rfl, hpe, hbl, hnd, ?_⟩
          rw [h2, hfs1]
          exact put_put fs _ _ _

theorem osStat_put_other (fs : FS) (k : List String) (n : Node) (name : String)
    (hlen : (resolve fs.cwd name).length < k.length) :
    osStat (fs.put k n) name = osStat fs name := by
  have hcwd : (fs.put k n).cwd = fs.cwd := rfl
  have hne : resolve fs.cwd name ≠ k := by
    intro h0
    rw [h0] at hlen
    omega
  unfold osStat
  rw [hcwd, blocked_put fs k _ n (by omega), lookup_put_ne fs k _ n hne]

theorem osStat_put_self (fs : FS) (n : Node) (name : String) (hp : pathError name = none)
    (hb : fs.blocked (resolve fs.cwd name) = false) :
    osStat (fs.put (resolve fs.cwd name) n) name = Except.ok n := by
  rw [osStat_ok_iff]
  have hcwd : (fs.put (resolve fs.cwd name) n).cwd = fs.cwd := rfl
  rw [hcwd]
  exact ⟨hp, by rw [blocked_put fs _ _ n (le_refl _)]; exact hb, lookup_put_self fs _ n⟩

theorem children_put (fs : FS) (rk : List String) (name : String) (n : Node)
    (hempty : fs.children rk = []) : (fs.put (rk ++ [name]) n).children rk = [(name, n)] := by
  unfold FS.children at hempty ⊢
  have h0 : fs.nodes.filter (fun e => e.1 != [] && e.1.dropLast == rk) = [] :=
    List.map_eq_nil_iff.1 hempty
  unfold FS.put
  simp only
  rw [List.filter_cons]
  have h1 : ((rk ++ [name]) != [] && (rk ++ [name]).dropLast == rk) = true := by simp
  simp only [h1, if_true, List.map_cons]
  have h2 : (fs.nodes.filter (fun e => e.1 != rk ++ [name])).filter
      (fun e => e.1 != [] && e.1.dropLast == rk) = [] := by
    rw [List.filter_filter]
    rw [List.filter_eq_nil_iff] at h0 ⊢
    intro e he h3
    simp only [Bool.and_eq_true] at h3
    exact h0 e he (by simpa using h3.1)
  rw [h2]
  simp

/-- Claim C6: on a storage root that is an empty directory, after an upload that is
answered with status 200, `listFiles` answers with status 200 and the JSON document whose
`files` field is an array of exactly one entry, with `file_name` the accepted name and
`file_size` the number of bytes of the content, and whose `count` field is 1. -/
theorem upload_then_list (env : Faults) (now : Nat) (fs : FS) (req : UploadRequest)
    (UploadDir : String) (form : List (String × FileHeader)) (header : FileHeader)
    (hroot : fs.stat UploadDir = some Node.dir)
    (hempty : fs.children (resolve fs.cwd UploadDir) = [])
    (hform : ParseMultipartForm req MaxFileSize = Except.ok form)
    (hfile : FormFile form "file" = Except.ok header)
    (hok : (uploadFile env now fs req UploadDir).1.status = StatusOK) :
    sanitize header.Filename = some (Base header.Filename)
    ∧ (listFiles (uploadFile env now fs req UploadDir).2 UploadDir).1
        = respondJSON StatusOK (JSON.object
            [("files", JSON.array [FileInfo.toJSON
                ⟨Base header.Filename, header.content.length, now,
                  "/api/v1/file/download/" ++ Base header.Filename⟩]),
             ("count", JSON.number 1)])
    ∧ (listFiles (uploadFile env now fs req UploadDir).2 UploadDir).1.status = 200
    ∧ (listFiles (uploadFile env now fs req UploadDir).2 UploadDir).1.body
        = Body.json (JSON.object
            [("files", JSON.array [JSON.object
                [("file_name", JSON.string (Base header.Filename)),
                 ("file_size", JSON.number header.content.length),
                 ("upload_time", JSON.time now),
                 ("download_url",
                   JSON.string ("/api/v1/file/download/" ++ Base header.Filename))]]),
             ("count", JSON.number 1)]) := by
  obtain ⟨filename, hs, _, _, hnd, hfs⟩ := uploadFile_ok env now fs req UploadDir form header
    hform hfile hok
  have hbase : filename = Base header.Filename := by
    have := (sanitize_eq_some _ _).1 hs
    exact String.ext this.1
  have hrootok := (stat_eq_some _ _ _).1 hroot
  obtain ⟨hrp, _, hrootdir⟩ := (osStat_ok_iff fs UploadDir Node.dir).1 hrootok
  have hrootne : UploadDir ≠ "" := pathError_ne_empty _ hrp
  have hp : Proper filename.data := by
    rcases sanitized_cases _ _ hs with h | h
    · exfalso
      subst h
      rw [resolve_Join_slash _ _ hrootne] at hnd
      exact hnd hrootdir
    · exact h
  have hkey := resolve_Join_proper fs.cwd UploadDir filename hp
  rw [hkey] at hfs
  have hstat : osStat (fs.put (resolve fs.cwd UploadDir ++ [filename])
      (Node.file header.content now)) UploadDir = Except.ok Node.dir := by
    rw [osStat_put_other fs _ _ UploadDir (by simp)]
    exact hrootok
  have hch := children_put fs (resolve fs.cwd UploadDir) filename
    (Node.file header.content now) hempty
  have hcwd : (fs.put (resolve fs.cwd UploadDir ++ [filename])
      (Node.file header.content now)).cwd = fs.cwd := rfl
  have hres : (listFiles (uploadFile env now fs req UploadDir).2 UploadDir).1
      = ⟨200, [("Content-Type", "application/json; charset=utf-8")],
          Body.json (JSON.object
            [("files", JSON.array [JSON.object
                [("file_name", JSON.string (Base header.Filename)),
                 ("file_size", JSON.number header.content.length),
                 ("upload_time", JSON.time now),
                 ("download_url",
                   JSON.string ("/api/v1/file/download/" ++ Base header.Filename))]]),
             ("count", JSON.number 1)])⟩ := by
    rw [hfs, ← hbase]
    unfold listFiles osReadDir
    simp only [hstat, hcwd, hch]
    simp [List.insertionSort, toDirEntry, listStep, Slice.append, Slice.toJSON, Slice.len,
      FileInfo.toJSON, respondJSON, StatusOK]
  refine ⟨hbase ▸ hs, ?_, ?_, ?_⟩
  · rw [hres]
    rfl
  · rw [hres]
  · rw [hres]

/-- Claim C6 at the name `report.pdf` and the content `abc`: one entry of size 3. -/
theorem upload_then_list_witness :
    (listFiles (uploadFile noFaults 7 emptyStore (uploadOf "report.pdf" [97, 98, 99])
        "uploads").2 "uploads").1.status = 200
    ∧ (listFiles (uploadFile noFaults 7 emptyStore (uploadOf "report.pdf" [97, 98, 99])
        "uploads").2 "uploads").1.body
        = Body.json (JSON.object
            [("files", JSON.array [JSON.object
                [("file_name", JSON.string "report.pdf"),
                 ("file_size", JSON.number 3),
                 ("upload_time", JSON.time 7),
                 ("download_url", JSON.string "/api/v1/file/download/report.pdf")]]),
             ("count", JSON.number 1)]) :=
  (upload_then_list noFaults 7 emptyStore (uploadOf "report.pdf" [97, 98, 99]) "uploads"
    [("file", ⟨"report.pdf", [97, 98, 99]⟩)] ⟨"report.pdf", [97, 98, 99]⟩
    (by decide) (by decide) rfl rfl (by decide)).2.2

theorem foldl_listStep_dirs (entries : List DirEntry) (h : ∀ e ∈ entries, e.IsDir = true) :
    entries.foldl listStep none = none := by
  induction entries with
  | nil => rfl
  | cons e es ih =>
    have he : e.IsDir = true := h e (by simp)
    have hstep : listStep none e = none := by simp [listStep, he]
    simp only [List.foldl_cons, hstep]
    exact ih (fun x hx => h x (by simp [hx]))

/-- Claim C10 on the code: when the storage root is a directory without non-directory
entries, `listFiles` answers with status 200 and `count` 0, and the `files` field is the
JSON `null` of the nil slice that `var files []FileInfo` declares, not an empty array. -/
theorem list_without_files (fs : FS) (UploadDir : String)
    (hroot : fs.stat UploadDir = some Node.dir)
    (hdirs : ∀ e ∈ fs.children (resolve fs.cwd UploadDir), e.2 = Node.dir) :
    (listFiles fs UploadDir).1
        = respondJSON StatusOK (JSON.object [("files", JSON.null), ("count", JSON.number 0)])
    ∧ JSON.field (JSON.object [("files", JSON.null), ("count", JSON.number 0)]) "files"
        ≠ some (JSON.array [])
    ∧ (listFiles fs UploadDir).1.status = 200
    ∧ (listFiles fs UploadDir).1.body
        = Body.json (JSON.object [("files", JSON.null), ("count", JSON.number 0)]) := by
  have hres : (listFiles fs UploadDir).1
      = respondJSON StatusOK (JSON.object [("files", JSON.null), ("count", JSON.number 0)]) := by
    unfold listFiles osReadDir
    simp only [(stat_eq_some _ _ _).1 hroot]
    have hall : ∀ e ∈ ((fs.children (resolve fs.cwd UploadDir)).insertionSort
        (fun a b => a.1.data ≤ b.1.data)).map toDirEntry, e.IsDir = true := by
      intro e he
      obtain ⟨x, hx, rfl⟩ := List.mem_map.1 he
      have hx2 : x ∈ fs.children (resolve fs.cwd UploadDir) :=
        (List.perm_insertionSort _ _).mem_iff.1 hx
      have := hdirs x hx2
      simp [toDirEntry, this]
    rw [foldl_listStep_dirs _ hall]
    rfl
  refine ⟨hres, ?_, ?_, ?_⟩
  · intro h
    simp [JSON.field, List.lookup] at h
  · rw [hres]
    rfl
  · rw [hres]
    rfl

/-- Claim C10 on the empty storage root. -/
theorem list_without_files_witness :
    (listFiles emptyStore "uploads").1
        = respondJSON StatusOK (JSON.object [("files", JSON.null), ("count", JSON.number 0)])
    ∧ JSON.field (JSON.object [("files", JSON.null), ("count", JSON.number 0)]) "files"
        ≠ some (JSON.array [])
    ∧ (listFiles emptyStore "uploads").1.status = 200
    ∧ (listFiles emptyStore "uploads").1.body
        = Body.json (JSON.object [("files", JSON.null), ("count", JSON.number 0)]) :=
  list_without_files emptyStore "uploads" (by decide) (by decide)

theorem baseChars_idem (path : List Char) : baseChars (baseChars path) = baseChars path := by
  rcases baseChars_shape path with h | h
  · rw [h]
    decide
  · exact baseChars_self _ h.1 h.2

/-- The round trip that does hold: after an upload answered with status 200, a download
request for the accepted name whose URL path has no `..` element and does not end in
`/index.html` is answered with status 200, the uploaded bytes, and the accepted name in
`Content-Disposition`. -/
theorem upload_then_download (env : Faults) (now : Nat) (fs : FS) (req : UploadRequest)
    (UploadDir : String) (form : List (String × FileHeader)) (header : FileHeader) (c : Context)
    (hform : ParseMultipartForm req MaxFileSize = Except.ok form)
    (hfile : FormFile form "file" = Except.ok header)
    (hok : (uploadFile env now fs req UploadDir).1.status = StatusOK)
    (hname : c.Param "filename" = Base header.Filename)
    (hdots : containsDotDot c.URLPath = false)
    (hindex : "/index.html".data.isSuffixOf c.URLPath.data = false) :
    (downloadFile (uploadFile env now fs req UploadDir).2 c UploadDir).1
      = ⟨StatusOK,
          [("Content-Description", "File Transfer"),
           ("Content-Transfer-Encoding", "binary"),
           ("Content-Disposition", "attachment; filename=" ++ Base header.Filename),
           ("Content-Type", "application/octet-stream")],
          Body.file header.content⟩ := by
  obtain ⟨filename, hs, hpe, hbl, _, hfs⟩ := uploadFile_ok env now fs req UploadDir form header
    hform hfile hok
  have hne : Join [UploadDir, filename] ≠ "" := pathError_ne_empty _ hpe
  have hsome := (sanitize_eq_some _ _).1 hs
  have hbase : filename = Base header.Filename := String.ext hsome.1
  have hs2 : sanitize (c.Param "filename") = some filename := by
    rw [hname, sanitize_eq_some]
    have hd : (Base header.Filename).data = baseChars header.Filename.data := rfl
    rw [hd, baseChars_idem]
    exact hsome
  have hstat : osStat (fs.put (resolve fs.cwd (Join [UploadDir, filename]))
      (Node.file header.content now)) (Join [UploadDir, filename])
      = Except.ok (Node.file header.content now) := osStat_put_self fs _ _ hpe hbl
  rw [hfs, ← hbase]
  unfold downloadFile
  simp only [hs2, hstat, osIsNotExist, Bool.false_eq_true, if_false]
  unfold ServeFile
  simp only [hdots, hindex, hne, hstat, Bool.false_eq_true, if_false]

/-- The round trip at the name `report.pdf` and the content `abc`. -/
theorem upload_then_download_witness :
    (downloadFile (uploadFile noFaults 7 emptyStore (uploadOf "report.pdf" [97, 98, 99])
        "uploads").2
        ⟨"/api/v1/file/download/report.pdf", [("filename", "report.pdf")]⟩ "uploads").1
      = ⟨StatusOK,
          [("Content-Description", "File Transfer"),
           ("Content-Transfer-Encoding", "binary"),
           ("Content-Disposition", "attachment; filename=" ++ Base "report.pdf"),
           ("Content-Type", "application/octet-stream")],
          Body.file [97, 98, 99]⟩ :=
  upload_then_download noFaults 7 emptyStore (uploadOf "report.pdf" [97, 98, 99]) "uploads"
    [("file", ⟨"report.pdf", [97, 98, 99]⟩)] ⟨"report.pdf", [97, 98, 99]⟩
    ⟨"/api/v1/file/download/report.pdf", [("filename", "report.pdf")]⟩
    rfl rfl (by decide) (by decide) (by decide) (by decide)

/-- Claim C5 on the code, at the declared filename `index.html` and the content `abc`:
the upload is answered with status 200 and the download address
`/api/v1/file/download/index.html`, the router hands the name `index.html` to
`downloadFile`, and the download is answered with a redirect (status 301 to `./`) that
carries no file bytes, although the storage holds the uploaded bytes. -/
theorem index_html_is_not_served :
    (uploadFile noFaults 7 emptyStore (uploadOf "index.html" [97, 98, 99]) "uploads").1.status
      = StatusOK
    ∧ sanitize "index.html" = some "index.html"
    ∧ (routeDownload "/api/v1/file/download/index.html").map (fun c => c.Param "filename")
      = some "index.html"
    ∧ (uploadFile noFaults 7 emptyStore (uploadOf "index.html" [97, 98, 99]) "uploads").2.stat
        (Join ["uploads", "index.html"]) = some (Node.file [97, 98, 99] 7)
    ∧ (downloadFile
        (uploadFile noFaults 7 emptyStore (uploadOf "index.html" [97, 98, 99]) "uploads").2
        ⟨"/api/v1/file/download/index.html", [("filename", "index.html")]⟩ "uploads").1.status
      = StatusMovedPermanently
    ∧ (downloadFile
        (uploadFile noFaults 7 emptyStore (uploadOf "index.html" [97, 98, 99]) "uploads").2
        ⟨"/api/v1/file/download/index.html", [("filename", "index.html")]⟩
        "uploads").1.body.content? = none := by
  decide

end FileServer
